import Mathlib

/-!
# Wonderland IPC server (`src/ipc/ipc_server_man.cpp`)

A shallow embedding of `IPCServer`: the channel registry (`clientComms`), the
broadcast slot list (`broadcastEvents`), the command dispatcher
(`ResponseHandler`), the payload reader (`RecvChunk`) and one iteration of the
per-connection receive loop of `ThreadedCommAllocator`.

Conventions of the embedding.

* A byte is a `Nat`; a C string in memory is the list of its bytes followed by
  a NUL. Reading memory past the end of a list yields NUL.
* `unsigned int` and `u_int32_t` are 32 bits wide: every value stored in one is
  reduced modulo `2 ^ 32`, including `std::vector::size()` and `strlen` results
  that the source assigns to an `unsigned int`.
* A pointer to an `IPCCoD4Event` is a `Nat` address and `NULL` is `0`.
* Undefined behaviour that the embedding tracks is reported as `none`: a write
  or read outside a `new char[n]` allocation, and `delete` applied a second time
  to the same event object inside one call.
* A socket is the bytes the peer has written, a schedule that limits what each
  successive `recv` returns, and the log of the buffers handed to `send`.
-/

namespace Wonderland

/-! ## Bytes, C strings, byte order -/

/-- The bytes of the characters of a string literal (without terminator). -/
def bytes (s : String) : List Nat := s.toList.map Char.toNat

/-- The memory image of a C string literal: its bytes and the terminating NUL. -/
def cstr (s : String) : List Nat := bytes s ++ [0]

/-- The C library `strlen`: the number of bytes before the first NUL. -/
def strlen : List Nat → Nat
  | [] => 0
  | c :: cs => if c = 0 then 0 else strlen cs + 1

/-- The C library `strncmp(s1, s2, n)`: compares at most `n` bytes and stops at
the first difference or after a NUL that both strings share. -/
def strncmp : List Nat → List Nat → Nat → Int
  | _, _, 0 => 0
  | s1, s2, n + 1 =>
    if s1.headD 0 ≠ s2.headD 0 then (s1.headD 0 : Int) - (s2.headD 0 : Int)
    else if s1.headD 0 = 0 then 0
    else strncmp s1.tail s2.tail n

/-- The four bytes that `htonl(x)` leaves in memory: `x` in big-endian order. -/
def htonl (x : Nat) : List Nat :=
  [x / 2 ^ 24 % 256, x / 2 ^ 16 % 256, x / 2 ^ 8 % 256, x % 256]

/-- The value `ntohl(*(u_int32_t*) p)` for the four bytes at `p`: they are read
as a big-endian 32-bit unsigned integer. -/
def ntohl (p : List Nat) : Nat :=
  (p.getD 0 0 * 2 ^ 24 + p.getD 1 0 * 2 ^ 16 + p.getD 2 0 * 2 ^ 8 + p.getD 3 0) % 2 ^ 32

/-- Writing `data` into `buf` from offset `pos` on (`memcpy`, `recv` into
`&buf[pos]`), for a write that stays inside the buffer. -/
def writeAt (buf : List Nat) (pos : Nat) (data : List Nat) : List Nat :=
  buf.take pos ++ data ++ buf.drop (pos + data.length)

/-! ## Constants of `globals.h` -/

/-- The two macros of `globals.h` the server uses. The header is not part of the
sources at hand, so both are parameters: `IPC_VER` is an `int`,
`WONDERLAND_VER` the bytes of a string literal. -/
structure Globals where
  IPC_VER : Int
  WONDERLAND_VER : List Nat

/-- The conversion `(u_int32_t) IPC_VER`. -/
def Globals.ipcVer32 (g : Globals) : Nat := (g.IPC_VER % 2 ^ 32).toNat

/-! ## Secondary channels (`IPCComm`) -/

/-- A secondary channel, as far as the server sees it: the three constructor
arguments `IPCComm(commId, path, prefix)`. -/
structure IPCComm where
  id : Nat
  path : List Nat
  pfx : List Nat
deriving DecidableEq, Repr

/-- Decimal digits of `n`, most significant first, accumulated in front of
`acc`; `fuel` bounds the number of digits. -/
def decimalAux : Nat → Nat → List Nat → List Nat
  | 0, _, acc => acc
  | fuel + 1, n, acc =>
    if n < 10 then (48 + n) :: acc
    else decimalAux fuel (n / 10) ((48 + n % 10) :: acc)

/-- The ASCII decimal numeral of `n`. -/
def decimal (n : Nat) : List Nat := decimalAux (n + 1) n []

/-- Modelled from the spec: `IPCComm::GetPath` lives in `ipc_comm.cpp`, which is
not among the sources. Section 6 gives the path of a secondary channel as
`{baseDirectory}{namePrefix}{id}`. -/
def IPCComm.GetPath (c : IPCComm) : List Nat := c.path ++ c.pfx ++ decimal c.id

/-! ## Server state -/

/-- The state of `IPCServer`: the static vectors `clientComms` and
`broadcastEvents`, the two path members set by the constructor, and the log of
`SignalSend` calls made on channels (oldest first). -/
structure IPCServer where
  clientComms : List IPCComm
  broadcastEvents : List Nat
  clientCommPrefix : List Nat
  clientCommPath : List Nat
  signalled : List IPCComm
deriving DecidableEq, Repr

/-- The null event pointer. -/
def NULL : Nat := 0

/-- The constructor `IPCServer::IPCServer(path)`: both vectors start empty
(`reserve` only sets capacity) and the argument is not used. -/
def IPCServer.init (_path : List Nat) : IPCServer :=
  { clientComms := []
    broadcastEvents := []
    clientCommPrefix := bytes "rabbithole-"
    clientCommPath := bytes "/tmp/"
    signalled := [] }

/-- `IPCServer::CreateNewComm`: the id is `clientComms.size()` stored in an
`unsigned int`; the new channel is pushed at the back. -/
def IPCServer.CreateNewComm (this : IPCServer) : Nat × IPCServer :=
  let commId := this.clientComms.length % 2 ^ 32
  (commId,
    { this with
      clientComms :=
        this.clientComms ++ [IPCComm.mk commId this.clientCommPath this.clientCommPrefix] })

/-- `n` consecutive calls of `CreateNewComm`: the ids returned, in call order,
and the final state. -/
def createMany : Nat → IPCServer → List Nat × IPCServer
  | 0, s => ([], s)
  | n + 1, s =>
    let r := s.CreateNewComm
    let rest := createMany n r.2
    (r.1 :: rest.1, rest.2)

/-! ## Sockets -/

/-- What one `recv` call meets: an error, or data of which it hands over at
most `cap` bytes (a short read when `cap` is below the requested length). -/
inductive RecvOutcome where
  | error
  | upTo (cap : Nat)
deriving DecidableEq, Repr

/-- A connected stream socket: `pending` are the bytes written by the peer and
not yet received, `sched` the outcomes of the coming `recv` calls (when it is
used up every call returns as much as was asked for and is there), `sent` the
buffers passed to `send`, oldest first. -/
structure Socket where
  pending : List Nat
  sched : List RecvOutcome
  sent : List (List Nat)
deriving DecidableEq, Repr

/-- The system call `recv(socket, buf, len, 0)`: the status it returns, the
bytes it stored at the start of `buf`, and the socket afterwards. The status is
`-1` on error, else the number of bytes stored; `0` stands for end of stream. -/
def recv (socket : Socket) (len : Nat) : Int × List Nat × Socket :=
  match socket.sched with
  | [] =>
    let k := min len socket.pending.length
    ((k : Int), socket.pending.take k, { socket with pending := socket.pending.drop k })
  | RecvOutcome.error :: rest => (-1, [], { socket with sched := rest })
  | RecvOutcome.upTo cap :: rest =>
    let k := min (min len cap) socket.pending.length
    ((k : Int), socket.pending.take k,
      { socket with pending := socket.pending.drop k, sched := rest })

/-- The system call `send(socket, buf, len, 0)` with `data` the `len` bytes at
`buf`; its return value is not used by the server. -/
def send (socket : Socket) (data : List Nat) : Socket :=
  { socket with sent := socket.sent ++ [data] }

/-! ## `RecvChunk` -/

/-- The size of the allocation `new char[chunkSize + 1]`: the sum is computed in
32-bit unsigned arithmetic. -/
def allocSize (chunkSize : Nat) : Nat := (chunkSize + 1) % 2 ^ 32

/-- The `while(curPos < chunkSize)` loop of `RecvChunk`. `fuel` bounds the
number of iterations; the state is the socket, the buffer, `curPos` and
`bufferSize`. The value returned by `recv` is dropped, as in the source, and
`curPos` advances by the requested amount. -/
def recvLoop (chunkSize : Nat) :
    Nat → Socket → List Nat → Nat → Nat → Socket × List Nat × Nat
  | 0, socket, payload, curPos, _ => (socket, payload, curPos)
  | fuel + 1, socket, payload, curPos, bufferSize =>
    if curPos < chunkSize then
      let currLen := chunkSize - curPos
      let bufferSize := if currLen < bufferSize then currLen else bufferSize
      let bufferSize := if chunkSize < bufferSize then chunkSize else bufferSize
      let r := recv socket bufferSize
      recvLoop chunkSize fuel r.2.2 (writeAt payload curPos r.2.1)
        ((curPos + bufferSize) % 2 ^ 32) bufferSize
    else (socket, payload, curPos)

/-- `IPCServer::RecvChunk(socket, chunkSize)`: the socket afterwards and the
buffer returned. `fresh i` is the byte found at offset `i` of newly allocated
memory. The result is `none` when the terminator index `chunkSize` is outside
the allocation. Every iteration advances `curPos` by at least one, so
`chunkSize` iterations are enough fuel. -/
def RecvChunk (fresh : Nat → Nat) (socket : Socket) (chunkSize : Nat) :
    Option (Socket × List Nat) :=
  if allocSize chunkSize ≤ chunkSize then none
  else
    let payload := ((List.range (allocSize chunkSize)).map fresh).set chunkSize 0
    let r := recvLoop chunkSize chunkSize socket payload 0 8
    some (r.1, r.2.1)

/-! ## `ResponseHandler` -/

/-- The `if(payload != NULL)` block of `ResponseHandler`: frame the C string at
`payload` and send it. `payloadSize` is an `unsigned int`, and so are the sums
`4 + payloadSize + 1` and `4 + payloadSize`. The result is `none` when `payload`
holds no NUL inside its allocation or when `packet` is allocated smaller than
the bytes copied into it. -/
def sendPacket (socket : Socket) (payload : List Nat) : Option Socket :=
  if 0 ∉ payload then none
  else
    let payloadSize := strlen payload % 2 ^ 32
    if (4 + payloadSize + 1) % 2 ^ 32 < 4 + payloadSize + 1 then none
    else
      let packet := htonl payloadSize ++ payload.take payloadSize ++ [0]
      some (send socket (packet.take ((4 + payloadSize) % 2 ^ 32)))

/-- The command matching of `ResponseHandler`: the server afterwards and the
buffer `payload`, `none` standing for the null pointer. The outer `none` is the
exception thrown by `clientComms.at`. -/
def dispatch (g : Globals) (this : IPCServer) (pkt : List Nat) :
    Option (IPCServer × Option (List Nat)) :=
  if strncmp (cstr "RABBITHOLE") pkt 10 = 0 then
    let r := this.CreateNewComm
    match r.2.clientComms[r.1]? with
    | none => none
    | some comm => some (r.2, some (comm.GetPath ++ [0]))
  else if strncmp (cstr "VERSION") pkt 7 = 0 then
    let s := strlen (g.WONDERLAND_VER ++ [0]) % 2 ^ 32
    some (this, some ((g.WONDERLAND_VER ++ [0]).take ((s + 1) % 2 ^ 32)))
  else some (this, none)

/-- `IPCServer::ResponseHandler(socket, pkt)`. -/
def IPCServer.ResponseHandler (g : Globals) (this : IPCServer) (socket : Socket)
    (pkt : List Nat) : Option (IPCServer × Socket) :=
  match dispatch g this pkt with
  | none => none
  | some (srv, none) => some (srv, socket)
  | some (srv, some payload) =>
    match sendPacket socket payload with
    | none => none
    | some socket' => some (srv, socket')

/-! ## The per-connection loop of `ThreadedCommAllocator` -/

/-- Where the inner `while(true)` loop stands after an iteration: back at its
head (`Receiving`), left through `break` (`Closed`), or stopped by undefined
behaviour or an uncaught exception (`Fault`). -/
inductive Phase where
  | Receiving
  | Closed
  | Fault
deriving DecidableEq, Repr

/-- The state of one client session: the server, the client socket and the
header buffer `rxRaw`, which is declared outside the inner loop. -/
structure Session where
  srv : IPCServer
  socket : Socket
  rxRaw : List Nat
deriving DecidableEq, Repr

/-- The part of an iteration after the version check: read the payload and hand
it to `ResponseHandler`. -/
def processFrame (g : Globals) (fresh : Nat → Nat) (c : Session) (payloadLen : Nat) :
    Phase × Session :=
  match RecvChunk fresh c.socket payloadLen with
  | none => (Phase.Fault, c)
  | some (socket1, payload) =>
    match c.srv.ResponseHandler g socket1 payload with
    | none => (Phase.Fault, { c with socket := socket1 })
    | some (srv, socket2) => (Phase.Receiving, { c with srv := srv, socket := socket2 })

/-- One iteration of the inner `while(true)` loop. -/
def handlerStep (g : Globals) (fresh : Nat → Nat) (c : Session) : Phase × Session :=
  let r := recv c.socket 8
  if r.1 ≤ 0 then (Phase.Closed, { c with socket := r.2.2 })
  else
    let rxRaw := writeAt c.rxRaw 0 r.2.1
    let version := ntohl (rxRaw.take 4)
    let payloadLen := ntohl (rxRaw.drop 4)
    if version ≠ g.ipcVer32 then
      (Phase.Closed, { c with socket := r.2.2, rxRaw := rxRaw })
    else processFrame g fresh { c with socket := r.2.2, rxRaw := rxRaw } payloadLen

/-! ## Broadcast events -/

/-- The slot scan of `SetEventForBroadcast`: at most `s` iterations over the
slots in index order; the first null slot met receives `event`. `none` means
`found` stayed false. -/
def fillFirstFree (event : Nat) : Nat → List Nat → Option (List Nat)
  | 0, _ => none
  | _ + 1, [] => none
  | s + 1, x :: xs =>
    if x = NULL then some (event :: xs)
    else (fillFirstFree event s xs).map (fun r => x :: r)

/-- `IPCServer::SetEventForBroadcast(event)`. Both loop bounds are a vector size
stored in an `unsigned int`. After the slot list is updated, `SignalSend` is
called on the channels in index order. -/
def IPCServer.SetEventForBroadcast (this : IPCServer) (event : Nat) : IPCServer :=
  let slots :=
    match fillFirstFree event (this.broadcastEvents.length % 2 ^ 32) this.broadcastEvents with
    | some r => r
    | none => this.broadcastEvents ++ [event]
  { this with
    broadcastEvents := slots
    signalled := this.signalled ++ this.clientComms.take (this.clientComms.length % 2 ^ 32) }

/-- The loop of `DestroyEvent`: at most `s` iterations over the slots in index
order. `released` tells whether `delete` was already applied to `event` in this
call; applying it again to a non-null pointer is undefined (`none`). -/
def destroyLoop (event : Nat) : Nat → Bool → List Nat → Option (List Nat)
  | 0, _, slots => some slots
  | _ + 1, _, [] => some []
  | s + 1, released, x :: xs =>
    if event = x then
      if released ∧ event ≠ NULL then none
      else (destroyLoop event s true xs).map (fun r => NULL :: r)
    else (destroyLoop event s released xs).map (fun r => x :: r)

/-- `IPCServer::DestroyEvent(event)`. -/
def IPCServer.DestroyEvent (this : IPCServer) (event : Nat) : Option IPCServer :=
  (destroyLoop event (this.broadcastEvents.length % 2 ^ 32) false this.broadcastEvents).map
    (fun r => { this with broadcastEvents := r })

/-! ## Runs of requests -/

/-- `ResponseHandler` applied to a sequence of request buffers in order, on one
socket. -/
def serve (g : Globals) : IPCServer → Socket → List (List Nat) → Option (IPCServer × Socket)
  | srv, socket, [] => some (srv, socket)
  | srv, socket, pkt :: pkts =>
    match srv.ResponseHandler g socket pkt with
    | none => none
    | some (srv1, socket1) => serve g srv1 socket1 pkts

/-! ## Reachable registries -/

/-- The path the server reports for the channel with id `k`: the constructor's
`clientCommPath` and `clientCommPrefix` followed by the id in decimal. -/
def rabbitPath (k : Nat) : List Nat := bytes "/tmp/" ++ bytes "rabbithole-" ++ decimal k

/-- The shape of the registry in every state the constructor and `CreateNewComm`
produce: both path members hold the constructor's literals and the channel at
index `i` was built from them with the id `i` as an `unsigned int`. -/
def IPCServer.Wf (s : IPCServer) : Prop :=
  s.clientCommPath = bytes "/tmp/" ∧
  s.clientCommPrefix = bytes "rabbithole-" ∧
  s.clientComms = (List.range s.clientComms.length).map
    (fun i => IPCComm.mk (i % 2 ^ 32) (bytes "/tmp/") (bytes "rabbithole-"))

/-- The value of an ASCII decimal numeral. -/
def decimalValue (ds : List Nat) : Nat := ds.foldl (fun a d => 10 * a + (d - 48)) 0

/-- A scheduled `recv` outcome that hands over at least 8 bytes when that many
are asked for and pending: not an error and not cut short. -/
def RecvOutcome.isFull : RecvOutcome → Bool
  | RecvOutcome.error => false
  | RecvOutcome.upTo cap => decide (8 ≤ cap)

/-- No read of the server is cut short and none fails: every scheduled outcome
is full. -/
def Socket.fullReads (socket : Socket) : Prop :=
  ∀ o ∈ socket.sched, o.isFull = true

/-- The next `recv` is neither an error nor cut below 8 bytes; later reads are
not constrained. -/
def Socket.nextReadFull (socket : Socket) : Prop :=
  (socket.sched.head?.map RecvOutcome.isFull).getD true = true

instance (s : IPCServer) : Decidable s.Wf := by
  unfold IPCServer.Wf
  infer_instance

instance (socket : Socket) : Decidable socket.fullReads := by
  unfold Socket.fullReads
  infer_instance

instance (socket : Socket) : Decidable socket.nextReadFull := by
  unfold Socket.nextReadFull
  infer_instance

/-! ## Program-order traces of the broadcast operations -/

/-- One step of `SetEventForBroadcast` or `DestroyEvent` on the shared state,
as the source performs them in program order. -/
inductive Access where
  | lock
  | unlock
  | slotsSize
  | slotRead (i : Nat)
  | slotWrite (i : Nat) (v : Nat)
  | slotPush (v : Nat)
  | release (p : Nat)
  | commsSize
  | signalSend (i : Nat)
deriving DecidableEq, Repr

/-- The steps of the slot scan of `SetEventForBroadcast` from index `i` on, with
at most `s` iterations left, and whether `found` was set. -/
def fillTrace (event : Nat) : Nat → Nat → List Nat → List Access × Bool
  | 0, _, _ => ([], false)
  | _ + 1, _, [] => ([], false)
  | s + 1, i, x :: xs =>
    if x = NULL then ([Access.slotRead i, Access.slotWrite i event], true)
    else (Access.slotRead i :: (fillTrace event s (i + 1) xs).1, (fillTrace event s (i + 1) xs).2)

/-- The part of `SetEventForBroadcast(event)` between `lock()` and the first
`SignalSend`: lock, the size read, the scan, the `push_back` when nothing was
found, unlock, and the read of `clientComms.size()`. -/
def IPCServer.publishSteps (this : IPCServer) (event : Nat) : List Access :=
  [Access.lock, Access.slotsSize] ++
    (fillTrace event (this.broadcastEvents.length % 2 ^ 32) 0 this.broadcastEvents).1 ++
    (if (fillTrace event (this.broadcastEvents.length % 2 ^ 32) 0 this.broadcastEvents).2
      then [] else [Access.slotPush event]) ++
    [Access.unlock, Access.commsSize]

/-- The steps of `SetEventForBroadcast(event)` in program order: the locked slot
update, then one `SignalSend` for each index below `clientComms.size()` as an
`unsigned int`. -/
def IPCServer.SetEventForBroadcastTrace (this : IPCServer) (event : Nat) : List Access :=
  this.publishSteps event ++
    (List.range (this.clientComms.length % 2 ^ 32)).map Access.signalSend

/-- The steps of the loop of `DestroyEvent` from index `i` on, with at most `s`
iterations left. -/
def destroyTrace (event : Nat) : Nat → Nat → List Nat → List Access
  | 0, _, _ => []
  | _ + 1, _, [] => []
  | s + 1, i, x :: xs =>
    if event = x then
      Access.slotRead i :: Access.release x :: Access.slotWrite i NULL ::
        destroyTrace event s (i + 1) xs
    else Access.slotRead i :: destroyTrace event s (i + 1) xs

/-- The steps of `DestroyEvent(event)` in program order. Both calls on
`bcastEventStackLock` are commented out in the source. -/
def IPCServer.DestroyEventTrace (this : IPCServer) (event : Nat) : List Access :=
  Access.slotsSize :: destroyTrace event (this.broadcastEvents.length % 2 ^ 32) 0
    this.broadcastEvents

/-- The effect of one step on the server state. -/
def IPCServer.step (s : IPCServer) : Access → IPCServer
  | Access.slotWrite i v => { s with broadcastEvents := s.broadcastEvents.set i v }
  | Access.slotPush v => { s with broadcastEvents := s.broadcastEvents ++ [v] }
  | Access.signalSend i => { s with signalled := s.signalled ++ (s.clientComms[i]?).toList }
  | _ => s

/-- Whether a step reads or writes the vector `broadcastEvents`. -/
def Access.touchesSlots : Access → Bool
  | Access.slotsSize => true
  | Access.slotRead _ => true
  | Access.slotWrite _ _ => true
  | Access.slotPush _ => true
  | _ => false

/-- Whether a step is a `SignalSend` call. -/
def Access.isSignal : Access → Bool
  | Access.signalSend _ => true
  | _ => false

/-- Whether every step of the trace that touches `broadcastEvents` is taken
while `bcastEventStackLock` is held; `held` tells whether it is held at the
start. -/
def lockedFrom : Bool → List Access → Bool
  | _, [] => true
  | _, Access.lock :: t => lockedFrom true t
  | _, Access.unlock :: t => lockedFrom false t
  | held, a :: t => (!a.touchesSlots || held) && lockedFrom held t

/-- The `recv` calls the loop of `RecvChunk` issues, in order: for each the write
offset `curPos` and the length `bufferSize` asked for. The loop variables evolve
as in `recvLoop`; they do not depend on what `recv` returns. -/
def recvRequests (chunkSize : Nat) : Nat → Nat → Nat → List (Nat × Nat)
  | 0, _, _ => []
  | fuel + 1, curPos, bufferSize =>
    if curPos < chunkSize then
      let currLen := chunkSize - curPos
      let bufferSize := if currLen < bufferSize then currLen else bufferSize
      let bufferSize := if chunkSize < bufferSize then chunkSize else bufferSize
      (curPos, bufferSize) :: recvRequests chunkSize fuel ((curPos + bufferSize) % 2 ^ 32) bufferSize
    else []

/-- One `recv` of the loop: ask for `req.2` bytes and store what arrives at
offset `req.1` of the buffer. -/
def recvInto (st : Socket × List Nat) (req : Nat × Nat) : Socket × List Nat :=
  ((recv st.1 req.2).2.2, writeAt st.2 req.1 (recv st.1 req.2).2.1)

/-! ## Sequences of producer calls -/

/-- A call an event producer makes on the broadcast registry. -/
inductive Op where
  | publish (event : Nat)
  | destroy (event : Nat)
deriving DecidableEq, Repr

/-- One producer call: `SetEventForBroadcast` or `DestroyEvent`. -/
def Op.run (s : IPCServer) : Op → Option IPCServer
  | Op.publish e => some (s.SetEventForBroadcast e)
  | Op.destroy e => s.DestroyEvent e

/-- A sequence of producer calls, run in order. -/
def runOps : IPCServer → List Op → Option IPCServer
  | s, [] => some s
  | s, op :: ops =>
    match op.run s with
    | none => none
    | some s' => runOps s' ops

/-- The events stored in the slot list: its non-null slots, in index order. -/
def IPCServer.stored (s : IPCServer) : List Nat :=
  s.broadcastEvents.filter (fun x => decide (x ≠ NULL))

/-- The number of occupied slots. -/
def IPCServer.occupied (s : IPCServer) : Nat := s.stored.length

/-- The largest number of occupied slots among the states a run passes through,
the starting state included. -/
def peakStored : IPCServer → List Op → Nat
  | s, [] => s.occupied
  | s, op :: ops =>
    match op.run s with
    | none => s.occupied
    | some s' => max s.occupied (peakStored s' ops)

/-- The sequences the accounting is about: every published event is non-null
and not stored when it is published, and the slot list has fewer than `2 ^ 32`
slots whenever a call is made. -/
def admissible : IPCServer → List Op → Prop
  | _, [] => True
  | s, Op.publish e :: ops =>
    s.broadcastEvents.length < 2 ^ 32 ∧ e ≠ NULL ∧ e ∉ s.broadcastEvents ∧
    admissible (s.SetEventForBroadcast e) ops
  | s, Op.destroy e :: ops =>
    s.broadcastEvents.length < 2 ^ 32 ∧
    ∀ s' : IPCServer, s.DestroyEvent e = some s' → admissible s' ops

/-- Admissibility is decided by running the sequence. -/
def decideAdmissible : (s : IPCServer) → (ops : List Op) → Decidable (admissible s ops)
  | _, [] => isTrue trivial
  | s, Op.publish e :: ops =>
    have : Decidable (admissible (s.SetEventForBroadcast e) ops) :=
      decideAdmissible (s.SetEventForBroadcast e) ops
    inferInstanceAs (Decidable (s.broadcastEvents.length < 2 ^ 32 ∧ e ≠ NULL ∧
      e ∉ s.broadcastEvents ∧ admissible (s.SetEventForBroadcast e) ops))
  | s, Op.destroy e :: ops =>
    have : Decidable (∀ s' : IPCServer, s.DestroyEvent e = some s' → admissible s' ops) :=
      match s.DestroyEvent e with
      | none => isTrue (fun _ h' => Option.noConfusion h')
      | some s1 =>
        have : Decidable (admissible s1 ops) := decideAdmissible s1 ops
        decidable_of_iff (admissible s1 ops)
          ⟨fun ha _ h' => Option.some.inj h' ▸ ha, fun hall => hall s1 rfl⟩
    inferInstanceAs (Decidable (s.broadcastEvents.length < 2 ^ 32 ∧
      ∀ s' : IPCServer, s.DestroyEvent e = some s' → admissible s' ops))

instance (s : IPCServer) (ops : List Op) : Decidable (admissible s ops) :=
  decideAdmissible s ops

/-! # Theorems -/

/-! ## Channel registry -/

theorem CreateNewComm_fields (s : IPCServer) :
    s.CreateNewComm.2.broadcastEvents = s.broadcastEvents ∧
    s.CreateNewComm.2.clientCommPrefix = s.clientCommPrefix ∧
    s.CreateNewComm.2.clientCommPath = s.clientCommPath ∧
    s.CreateNewComm.2.signalled = s.signalled ∧
    s.CreateNewComm.2.clientComms =
      s.clientComms ++ [IPCComm.mk (s.clientComms.length % 2 ^ 32) s.clientCommPath s.clientCommPrefix] ∧
    s.CreateNewComm.1 = s.clientComms.length % 2 ^ 32 := by
  simp [IPCServer.CreateNewComm]

theorem createMany_run (N : Nat) : ∀ s : IPCServer,
    (createMany N s).1 = (List.range N).map (fun k => (s.clientComms.length + k) % 2 ^ 32) ∧
    (createMany N s).2.clientComms =
      s.clientComms ++ (List.range N).map
        (fun k => IPCComm.mk ((s.clientComms.length + k) % 2 ^ 32) s.clientCommPath s.clientCommPrefix) ∧
    (createMany N s).2.clientCommPath = s.clientCommPath ∧
    (createMany N s).2.clientCommPrefix = s.clientCommPrefix ∧
    (createMany N s).2.broadcastEvents = s.broadcastEvents ∧
    (createMany N s).2.signalled = s.signalled := by
  induction N with
  | zero => intro s; simp [createMany]
  | succ n ih =>
    intro s
    obtain ⟨h1, h2, h3, h4, h5, h6⟩ := ih s.CreateNewComm.2
    obtain ⟨f1, f2, f3, f4, f5, f6⟩ := CreateNewComm_fields s
    simp only [createMany]
    rw [h1, h2, h3, h4, h5, h6, f1, f2, f3, f4, f5, f6]
    simp only [List.range_succ_eq_map, List.map_cons, List.map_map, List.length_append,
      List.length_singleton, List.append_assoc, List.singleton_append, Nat.add_zero]
    refine ⟨?_, ?_, trivial, trivial, trivial, trivial⟩
    · congr 1
      apply List.map_congr_left
      intro k _
      simp only [Function.comp, Nat.succ_eq_add_one]
      congr 1
      omega
    · congr 2
      apply List.map_congr_left
      intro k _
      simp only [Function.comp, Nat.succ_eq_add_one]
      congr 2
      omega


/-- C1 (amended): `CreateNewComm` assigns dense ids while the id fits the
`unsigned int` that holds it. For a registry with `n < 2 ^ 32` channels the call
returns `n`, the registry afterwards has `n + 1` channels, the channel at index
`n` is the new one, built from id `n`, and the first `n` channels are unchanged.
Hence `N ≤ 2 ^ 32` consecutive calls on a freshly constructed server return
`0, 1, ..., N - 1` in order, leave `N` channels, and the channel at index `i`
has id `i`. -/
theorem CreateNewComm_dense_ids (s : IPCServer) (p : List Nat) (N : Nat)
    (hs : s.clientComms.length < 2 ^ 32) (hN : N ≤ 2 ^ 32) :
    s.CreateNewComm.1 = s.clientComms.length ∧
    s.CreateNewComm.2.clientComms.length = s.clientComms.length + 1 ∧
    s.CreateNewComm.2.clientComms[s.clientComms.length]? =
      some (IPCComm.mk s.clientComms.length s.clientCommPath s.clientCommPrefix) ∧
    s.CreateNewComm.2.clientComms.take s.clientComms.length = s.clientComms ∧
    (createMany N (IPCServer.init p)).1 = List.range N ∧
    (createMany N (IPCServer.init p)).2.clientComms.length = N ∧
    ∀ i, i < N →
      ((createMany N (IPCServer.init p)).2.clientComms[i]?).map IPCComm.id = some i := by
  obtain ⟨-, -, -, -, f5, f6⟩ := CreateNewComm_fields s
  obtain ⟨h1, h2, -⟩ := createMany_run N (IPCServer.init p)
  have hmod : s.clientComms.length % 2 ^ 32 = s.clientComms.length := Nat.mod_eq_of_lt hs
  have hinit : (IPCServer.init p).clientComms = [] := rfl
  refine ⟨by rw [f6, hmod], by rw [f5]; simp, ?_, by rw [f5]; simp, ?_, ?_, ?_⟩
  · rw [f5, hmod]; simp
  · rw [h1, hinit]
    conv_rhs => rw [← List.map_id (List.range N)]
    apply List.map_congr_left
    intro k hk
    have : k < N := List.mem_range.mp hk
    simp only [List.length_nil, Nat.zero_add, id]
    omega
  · rw [h2, hinit]; simp
  · intro i hi
    rw [h2, hinit]
    simp only [List.nil_append, List.length_nil, Nat.zero_add, List.getElem?_map,
      List.getElem?_range hi, Option.map_some']
    congr 1
    omega

/-- Witness of C1: the first call on a new server returns 0, three calls
return 0, 1, 2. -/
theorem CreateNewComm_dense_ids_witness :
    (IPCServer.init []).CreateNewComm.1 = 0 ∧
    (createMany 3 (IPCServer.init [])).1 = [0, 1, 2] :=
  have h := CreateNewComm_dense_ids (IPCServer.init []) [] 3 (by decide) (by decide)
  ⟨h.1, h.2.2.2.2.1⟩


theorem createMany_wrap (M : Nat) (hM : M = 2 ^ 32) :
    (createMany M (IPCServer.init [])).2.clientComms.length = M ∧
    (createMany M (IPCServer.init [])).2.CreateNewComm.1 = 0 ∧
    (createMany (M + 1) (IPCServer.init [])).1 ≠ List.range (M + 1) := by
  have hinit : (IPCServer.init []).clientComms = [] := rfl
  have hlen : (createMany M (IPCServer.init [])).2.clientComms.length = M := by
    rw [(createMany_run M (IPCServer.init [])).2.1, hinit]
    simp only [List.nil_append, List.length_map, List.length_range]
  refine ⟨hlen, ?_, ?_⟩
  · rw [(CreateNewComm_fields _).2.2.2.2.2, hlen, hM]
    exact Nat.mod_self _
  · intro h
    have h2 := congrArg (fun l => l[M]?) h
    rw [(createMany_run (M + 1) (IPCServer.init [])).1, hinit] at h2
    simp only [List.length_nil, Nat.zero_add, List.getElem?_map] at h2
    rw [List.getElem?_range (Nat.lt_succ_self _)] at h2
    simp only [Option.map_some', Option.some.injEq] at h2
    rw [hM] at h2
    omega

/-- C1 fails as stated: after `2 ^ 32` calls on a new server the registry holds
`2 ^ 32` channels, and the next call returns id `0`, not `2 ^ 32`; so
`2 ^ 32 + 1` consecutive calls do not return `0, 1, ..., 2 ^ 32`. -/
theorem CreateNewComm_id_wraps :
    (createMany (2 ^ 32) (IPCServer.init [])).2.clientComms.length = 2 ^ 32 ∧
    (createMany (2 ^ 32) (IPCServer.init [])).2.CreateNewComm.1 = 0 ∧
    (createMany (2 ^ 32 + 1) (IPCServer.init [])).1 ≠ List.range (2 ^ 32 + 1) :=
  createMany_wrap (2 ^ 32) rfl


/-! ## C strings -/

theorem strlen_append_nul (p t : List Nat) (hp : ∀ b ∈ p, b ≠ 0) :
    strlen (p ++ 0 :: t) = p.length := by
  induction p with
  | nil => simp [strlen]
  | cons c cs ih =>
    have hc : c ≠ 0 := hp c (List.mem_cons_self _ _)
    have hcs : ∀ b ∈ cs, b ≠ 0 := fun b hb => hp b (List.mem_cons_of_mem _ hb)
    simp [strlen, hc, ih hcs]

theorem strncmp_eq_zero_iff (lit : List Nat) (hlit : ∀ b ∈ lit, b ≠ 0) :
    ∀ (t pkt : List Nat), strncmp (lit ++ t) pkt lit.length = 0 ↔ pkt.take lit.length = lit := by
  induction lit with
  | nil => intro t pkt; simp [strncmp]
  | cons c cs ih =>
    intro t pkt
    have hc : c ≠ 0 := hlit c (List.mem_cons_self _ _)
    have hcs : ∀ b ∈ cs, b ≠ 0 := fun b hb => hlit b (List.mem_cons_of_mem _ hb)
    cases pkt with
    | nil =>
      simp only [List.cons_append, List.length_cons, strncmp, List.headD_cons, List.headD_nil,
        List.take_nil]
      simp only [ne_eq, hc, not_false_eq_true, if_true]
      constructor
      · intro h; exfalso; omega
      · intro h; exact absurd h (by simp)
    | cons d ds =>
      simp only [List.cons_append, List.length_cons, strncmp, List.headD_cons, List.tail_cons,
        List.take_succ_cons, List.cons.injEq]
      by_cases hcd : c = d
      · subst hcd
        simp only [ne_eq, not_true_eq_false, if_false, hc, true_and]
        exact ih hcs t ds
      · simp only [ne_eq, hcd, not_false_eq_true, if_true]
        constructor
        · intro h; exfalso; omega
        · intro h; exact absurd h.1.symm hcd

theorem htonl_length (x : Nat) : (htonl x).length = 4 := rfl

theorem sendPacket_cstring (socket : Socket) (p : List Nat) (hp : ∀ b ∈ p, b ≠ 0)
    (hlen : p.length + 5 < 2 ^ 32) :
    sendPacket socket (p ++ [0]) = some (send socket (htonl p.length ++ p)) := by
  have hs : strlen (p ++ [0]) = p.length := strlen_append_nul p [] hp
  have hmod : p.length % 2 ^ 32 = p.length := Nat.mod_eq_of_lt (by omega)
  have h1 : (4 + p.length + 1) % 2 ^ 32 = 4 + p.length + 1 := Nat.mod_eq_of_lt (by omega)
  have h2 : (4 + p.length) % 2 ^ 32 = 4 + p.length := Nat.mod_eq_of_lt (by omega)
  have hmem : (0 : Nat) ∈ p ++ [0] := by simp
  unfold sendPacket
  simp only [hmem, not_true_eq_false, if_false, hs, hmod, h1, h2, lt_self_iff_false]
  congr 2
  rw [List.take_left' rfl]
  have : 4 + p.length = (htonl p.length ++ p).length := by simp [htonl_length]
  rw [this, List.take_left' rfl]



/-! ## Decimal numerals -/

theorem decimalAux_mem (fuel : Nat) : ∀ (n : Nat) (acc : List Nat) (b : Nat),
    b ∈ decimalAux fuel n acc → 48 ≤ b ∨ b ∈ acc := by
  induction fuel with
  | zero => intro n acc b h; exact Or.inr h
  | succ f ih =>
    intro n acc b h
    unfold decimalAux at h
    split at h
    · rcases List.mem_cons.mp h with h | h
      · left; omega
      · exact Or.inr h
    · rcases ih _ _ b h with h | h
      · exact Or.inl h
      · rcases List.mem_cons.mp h with h | h
        · left; omega
        · exact Or.inr h

theorem decimal_ne_zero (n b : Nat) (h : b ∈ decimal n) : b ≠ 0 := by
  rcases decimalAux_mem _ _ _ b h with h | h
  · omega
  · exact absurd h (List.not_mem_nil b)

theorem decimalAux_length (fuel : Nat) : ∀ (n : Nat) (acc : List Nat) (k : Nat),
    n < 10 ^ (k + 1) → (decimalAux fuel n acc).length ≤ k + 1 + acc.length := by
  induction fuel with
  | zero => intro n acc k _; simp only [decimalAux]; omega
  | succ f ih =>
    intro n acc k h
    unfold decimalAux
    split
    · simp only [List.length_cons]; omega
    · rename_i h10
      cases k with
      | zero => simp at h; omega
      | succ k =>
        have hdiv : n / 10 < 10 ^ (k + 1) := by
          rw [Nat.div_lt_iff_lt_mul (by decide)]
          rw [pow_succ] at h
          exact h
        have := ih (n / 10) ((48 + n % 10) :: acc) k hdiv
        simp only [List.length_cons] at this
        omega

theorem decimal_length_le (n : Nat) (h : n < 2 ^ 32) : (decimal n).length ≤ 10 := by
  have := decimalAux_length (n + 1) n [] 9 (by omega)
  simpa [decimal] using this

theorem decimalAux_value (fuel : Nat) : ∀ (n : Nat) (acc : List Nat), n < fuel →
    decimalValue (decimalAux fuel n acc) =
      acc.foldl (fun a d => 10 * a + (d - 48)) n := by
  induction fuel with
  | zero => intro n acc h; omega
  | succ f ih =>
    intro n acc h
    unfold decimalAux
    split
    · simp [decimalValue]
    · rename_i h10
      rw [ih (n / 10) _ (by omega)]
      simp only [List.foldl_cons]
      congr 1
      omega

theorem decimalValue_decimal (n : Nat) : decimalValue (decimal n) = n := by
  rw [decimal, decimalAux_value (n + 1) n [] (Nat.lt_succ_self n)]
  rfl

theorem decimal_injective (i j : Nat) (h : decimal i = decimal j) : i = j := by
  have := congrArg decimalValue h
  rwa [decimalValue_decimal, decimalValue_decimal] at this

theorem rabbitPath_injective (i j : Nat) (h : rabbitPath i = rabbitPath j) : i = j :=
  decimal_injective i j (List.append_cancel_left h)

theorem rabbitPath_ne_zero (k b : Nat) (h : b ∈ rabbitPath k) : b ≠ 0 := by
  unfold rabbitPath at h
  rcases List.mem_append.mp h with h | h
  · intro hb; subst hb; revert h; decide
  · exact decimal_ne_zero k b h

theorem rabbitPath_length (k : Nat) : (rabbitPath k).length = 16 + (decimal k).length := by
  unfold rabbitPath
  rw [List.length_append]
  rfl

/-! ## Registry shape -/

theorem Wf_init (p : List Nat) : (IPCServer.init p).Wf := ⟨rfl, rfl, rfl⟩

theorem Wf_CreateNewComm (s : IPCServer) (h : s.Wf) : s.CreateNewComm.2.Wf := by
  obtain ⟨h1, h2, h3⟩ := h
  obtain ⟨-, f2, f3, -, f5, -⟩ := CreateNewComm_fields s
  refine ⟨f3.trans h1, f2.trans h2, ?_⟩
  rw [f5, List.length_append, List.length_singleton, List.range_succ, List.map_append, ← h3,
    h1, h2]
  rfl

theorem Wf_getElem (s : IPCServer) (h : s.Wf) (i : Nat) (hi : i < s.clientComms.length) :
    s.clientComms[i]? = some (IPCComm.mk (i % 2 ^ 32) (bytes "/tmp/") (bytes "rabbithole-")) := by
  rw [h.2.2, List.getElem?_map, List.getElem?_range hi]
  rfl

theorem GetPath_mk (k : Nat) :
    (IPCComm.mk k (bytes "/tmp/") (bytes "rabbithole-")).GetPath = rabbitPath k := rfl



/-! ## Dispatcher -/

theorem bytes_RABBITHOLE_ne_zero : ∀ b ∈ bytes "RABBITHOLE", b ≠ 0 := by decide

theorem bytes_VERSION_ne_zero : ∀ b ∈ bytes "VERSION", b ≠ 0 := by decide

theorem strncmp_RABBITHOLE (pkt : List Nat) :
    strncmp (cstr "RABBITHOLE") pkt 10 = 0 ↔ pkt.take 10 = bytes "RABBITHOLE" :=
  strncmp_eq_zero_iff (bytes "RABBITHOLE") bytes_RABBITHOLE_ne_zero [0] pkt

theorem strncmp_VERSION (pkt : List Nat) :
    strncmp (cstr "VERSION") pkt 7 = 0 ↔ pkt.take 7 = bytes "VERSION" :=
  strncmp_eq_zero_iff (bytes "VERSION") bytes_VERSION_ne_zero [0] pkt

theorem dispatch_RABBITHOLE (g : Globals) (s : IPCServer) (pkt : List Nat) (hs : s.Wf)
    (hpkt : pkt.take 10 = bytes "RABBITHOLE") :
    dispatch g s pkt =
      some (s.CreateNewComm.2, some (rabbitPath (s.clientComms.length % 2 ^ 32) ++ [0])) := by
  obtain ⟨-, -, -, -, f5, f6⟩ := CreateNewComm_fields s
  have hget : s.CreateNewComm.2.clientComms[s.CreateNewComm.1]? =
      some (IPCComm.mk (s.clientComms.length % 2 ^ 32) (bytes "/tmp/") (bytes "rabbithole-")) := by
    have hwf := Wf_CreateNewComm s hs
    have hlt : s.clientComms.length % 2 ^ 32 < s.CreateNewComm.2.clientComms.length := by
      rw [f5, List.length_append, List.length_singleton]
      have := Nat.mod_le s.clientComms.length (2 ^ 32)
      omega
    rw [f6, Wf_getElem _ hwf _ hlt, Nat.mod_mod]
  unfold dispatch
  simp only [(strncmp_RABBITHOLE pkt).mpr hpkt, if_true, hget, GetPath_mk]

theorem ResponseHandler_RABBITHOLE (g : Globals) (s : IPCServer) (socket : Socket)
    (pkt : List Nat) (hs : s.Wf) (hpkt : pkt.take 10 = bytes "RABBITHOLE") :
    s.ResponseHandler g socket pkt =
      some (s.CreateNewComm.2,
        send socket (htonl (rabbitPath (s.clientComms.length % 2 ^ 32)).length ++
          rabbitPath (s.clientComms.length % 2 ^ 32))) := by
  have hk : s.clientComms.length % 2 ^ 32 < 2 ^ 32 := Nat.mod_lt _ (by decide)
  have hlen : (rabbitPath (s.clientComms.length % 2 ^ 32)).length + 5 < 2 ^ 32 := by
    rw [rabbitPath_length]
    have := decimal_length_le _ hk
    omega
  unfold IPCServer.ResponseHandler
  rw [dispatch_RABBITHOLE g s pkt hs hpkt]
  simp only [sendPacket_cstring socket _ (rabbitPath_ne_zero _) hlen]

/-- The frame sent in answer to the request that creates channel `k`. -/
theorem serve_RABBITHOLE (g : Globals) (pkts : List (List Nat)) :
    ∀ (s : IPCServer) (socket : Socket), s.Wf →
      (∀ pkt ∈ pkts, pkt.take 10 = bytes "RABBITHOLE") →
      serve g s socket pkts =
        some ((createMany pkts.length s).2,
          { socket with
            sent := socket.sent ++ (List.range pkts.length).map
              (fun k => htonl (rabbitPath ((s.clientComms.length + k) % 2 ^ 32)).length ++
                rabbitPath ((s.clientComms.length + k) % 2 ^ 32)) }) := by
  induction pkts with
  | nil => intro s socket _ _; simp [serve, createMany]
  | cons pkt pkts ih =>
    intro s socket hs hall
    have h1 := ResponseHandler_RABBITHOLE g s socket pkt hs (hall pkt (List.mem_cons_self _ _))
    have h2 := ih s.CreateNewComm.2 (send socket (htonl (rabbitPath
      (s.clientComms.length % 2 ^ 32)).length ++ rabbitPath (s.clientComms.length % 2 ^ 32)))
      (Wf_CreateNewComm s hs) (fun p hp => hall p (List.mem_cons_of_mem _ hp))
    simp only [serve, h1, h2, List.length_cons, createMany]
    have hl : s.CreateNewComm.2.clientComms.length = s.clientComms.length + 1 := by
      rw [(CreateNewComm_fields s).2.2.2.2.1]; simp
    simp only [send, hl, List.range_succ_eq_map, List.map_cons, List.map_map, Nat.add_zero,
      List.append_assoc, List.singleton_append, Option.some.injEq, Prod.mk.injEq, true_and,
      Socket.mk.injEq, and_true, List.append_cancel_left_eq, List.cons.injEq]
    apply List.map_congr_left
    intro k _
    simp only [Function.comp, Nat.succ_eq_add_one]
    have : s.clientComms.length + 1 + k = s.clientComms.length + (k + 1) := by omega
    rw [this]



/-- C2 (amended): `N ≤ 2 ^ 32` requests whose buffers begin with the 10 bytes
`RABBITHOLE` (any bytes may follow), served in order by `ResponseHandler` on a
freshly constructed server. Every request is answered; the `k`-th frame sent is
the 4-byte length followed by exactly `"/tmp/" ++ "rabbithole-" ++ decimal k`;
the channels created have the ids `0, 1, ..., N - 1` in request order and
report those paths; and the `N` paths are pairwise distinct. The protocol
version is checked before `ResponseHandler` is reached. -/
theorem RABBITHOLE_requests (g : Globals) (p : List Nat) (socket : Socket)
    (pkts : List (List Nat)) (hN : pkts.length ≤ 2 ^ 32)
    (hall : ∀ pkt ∈ pkts, pkt.take 10 = bytes "RABBITHOLE") :
    ∃ srv socket', serve g (IPCServer.init p) socket pkts = some (srv, socket') ∧
      socket'.sent = socket.sent ++ (List.range pkts.length).map
        (fun k => htonl (bytes "/tmp/" ++ bytes "rabbithole-" ++ decimal k).length ++
          (bytes "/tmp/" ++ bytes "rabbithole-" ++ decimal k)) ∧
      srv.clientComms.map IPCComm.id = List.range pkts.length ∧
      srv.clientComms.map IPCComm.GetPath = (List.range pkts.length).map
        (fun k => bytes "/tmp/" ++ bytes "rabbithole-" ++ decimal k) ∧
      ∀ i j, i < pkts.length → j < pkts.length → i ≠ j →
        bytes "/tmp/" ++ bytes "rabbithole-" ++ decimal i ≠
          bytes "/tmp/" ++ bytes "rabbithole-" ++ decimal j := by
  have hrun := serve_RABBITHOLE g pkts (IPCServer.init p) socket (Wf_init p) hall
  have hinit : (IPCServer.init p).clientComms = [] := rfl
  have hcomms := (createMany_run pkts.length (IPCServer.init p)).2.1
  rw [hinit] at hcomms
  simp only [List.nil_append, List.length_nil, Nat.zero_add] at hcomms
  have hmod : ∀ k ∈ List.range pkts.length, k % 2 ^ 32 = k := by
    intro k hk
    have : k < pkts.length := List.mem_range.mp hk
    exact Nat.mod_eq_of_lt (by omega)
  refine ⟨_, _, hrun, ?_, ?_, ?_, ?_⟩
  · simp only [hinit, List.length_nil, Nat.zero_add, List.append_cancel_left_eq]
    apply List.map_congr_left
    intro k hk
    rw [hmod k hk]
    rfl
  · rw [hcomms, List.map_map]
    conv_rhs => rw [← List.map_id (List.range pkts.length)]
    apply List.map_congr_left
    intro k hk
    simp only [Function.comp, id, hmod k hk]
  · rw [hcomms, List.map_map]
    apply List.map_congr_left
    intro k hk
    simp only [Function.comp, hmod k hk]
    rfl
  · intro i j _ _ hij h
    exact hij (rabbitPath_injective i j h)

/-- Witness of C2: `RABBITHOLE` and `RABBITHOLEignored` are answered with
`/tmp/rabbithole-0` and `/tmp/rabbithole-1`. -/
theorem RABBITHOLE_requests_witness :
    ∃ srv socket', serve ⟨1, bytes "0.1"⟩ (IPCServer.init []) ⟨[], [], []⟩
        [cstr "RABBITHOLE", cstr "RABBITHOLEignored"] = some (srv, socket') ∧
      socket'.sent = [htonl 17 ++ bytes "/tmp/rabbithole-0", htonl 17 ++ bytes "/tmp/rabbithole-1"] := by
  obtain ⟨srv, socket', h1, h2, -⟩ := RABBITHOLE_requests ⟨1, bytes "0.1"⟩ [] ⟨[], [], []⟩
    [cstr "RABBITHOLE", cstr "RABBITHOLEignored"] (by decide) (by decide)
  exact ⟨srv, socket', h1, h2.trans (by decide)⟩

theorem serve_wrap (M : Nat) (hM : M = 2 ^ 32) :
    ∃ srv socket', serve ⟨1, []⟩ (IPCServer.init []) ⟨[], [], []⟩
        (List.replicate (M + 1) (cstr "RABBITHOLE")) = some (srv, socket') ∧
      socket'.sent[M]? = some (htonl 17 ++ bytes "/tmp/rabbithole-0") ∧
      socket'.sent[0]? = some (htonl 17 ++ bytes "/tmp/rabbithole-0") ∧
      socket'.sent[M]? ≠
        some (htonl (bytes "/tmp/" ++ bytes "rabbithole-" ++ decimal M).length ++
          (bytes "/tmp/" ++ bytes "rabbithole-" ++ decimal M)) := by
  have hall : ∀ pkt ∈ List.replicate (M + 1) (cstr "RABBITHOLE"),
      pkt.take 10 = bytes "RABBITHOLE" := by
    intro pkt hpkt
    rw [List.eq_of_mem_replicate hpkt]
    decide
  have hrun := serve_RABBITHOLE ⟨1, []⟩ _ (IPCServer.init []) ⟨[], [], []⟩ (Wf_init []) hall
  have hinit : (IPCServer.init []).clientComms = [] := rfl
  simp only [List.length_replicate, hinit, List.length_nil, Nat.zero_add, List.nil_append]
    at hrun
  have hM0 : M % 2 ^ 32 = 0 := by rw [hM]; exact Nat.mod_self _
  have hAt : ((List.range (M + 1)).map
      (fun k => htonl (rabbitPath (k % 2 ^ 32)).length ++ rabbitPath (k % 2 ^ 32)))[M]? =
      some (htonl 17 ++ bytes "/tmp/rabbithole-0") := by
    rw [List.getElem?_map, List.getElem?_range (Nat.lt_succ_self M), Option.map_some', hM0]
    rfl
  have hAt0 : ((List.range (M + 1)).map
      (fun k => htonl (rabbitPath (k % 2 ^ 32)).length ++ rabbitPath (k % 2 ^ 32)))[0]? =
      some (htonl 17 ++ bytes "/tmp/rabbithole-0") := by
    rw [List.getElem?_map, List.getElem?_range (Nat.succ_pos M), Option.map_some']
    rfl
  refine ⟨_, _, hrun, hAt, hAt0, ?_⟩
  simp only [hAt]
  intro h
  have h2 := congrArg (fun l => decimalValue (l.drop 20)) (Option.some.inj h)
  simp only [List.append_assoc] at h2
  have e1 : List.drop 20 (htonl (bytes "/tmp/" ++ (bytes "rabbithole-" ++ decimal M)).length ++
      (bytes "/tmp/" ++ (bytes "rabbithole-" ++ decimal M))) = decimal M := rfl
  rw [e1, decimalValue_decimal] at h2
  have e2 : decimalValue (List.drop 20 (htonl 17 ++ bytes "/tmp/rabbithole-0")) = 0 := by decide
  rw [e2] at h2
  omega

/-- C2 fails as stated: of `2 ^ 32 + 1` requests `RABBITHOLE` on a new server, the
one with index `2 ^ 32` is answered with `/tmp/rabbithole-0`, the path already
sent in answer to the request with index `0`, and not with the path of id
`2 ^ 32`. -/
theorem RABBITHOLE_requests_wrap :
    ∃ srv socket', serve ⟨1, []⟩ (IPCServer.init []) ⟨[], [], []⟩
        (List.replicate (2 ^ 32 + 1) (cstr "RABBITHOLE")) = some (srv, socket') ∧
      socket'.sent[2 ^ 32]? = some (htonl 17 ++ bytes "/tmp/rabbithole-0") ∧
      socket'.sent[0]? = some (htonl 17 ++ bytes "/tmp/rabbithole-0") ∧
      socket'.sent[2 ^ 32]? ≠
        some (htonl (bytes "/tmp/" ++ bytes "rabbithole-" ++ decimal (2 ^ 32)).length ++
          (bytes "/tmp/" ++ bytes "rabbithole-" ++ decimal (2 ^ 32))) :=
  serve_wrap (2 ^ 32) rfl



/-! ## Byte order -/

theorem ntohl_htonl (x : Nat) (t : List Nat) : ntohl (htonl x ++ t) = x % 2 ^ 32 := by
  simp only [ntohl, htonl, List.cons_append, List.getD_cons_zero, List.getD_cons_succ]
  omega

theorem ipcVer32_lt (g : Globals) : g.ipcVer32 < 2 ^ 32 := by
  unfold Globals.ipcVer32
  omega

/-! ## Reading from a socket that is not cut short -/

theorem isFull_upTo (o : RecvOutcome) (h : o.isFull = true) :
    ∃ cap, o = RecvOutcome.upTo cap ∧ 8 ≤ cap := by
  cases o with
  | error => exact absurd h (by decide)
  | upTo cap => exact ⟨cap, rfl, of_decide_eq_true h⟩

theorem recv_fullReads (socket : Socket) (len : Nat) (h : socket.fullReads) (hlen : len ≤ 8)
    (hp : len ≤ socket.pending.length) :
    recv socket len = ((len : Int), socket.pending.take len,
      { pending := socket.pending.drop len, sched := socket.sched.tail, sent := socket.sent }) ∧
    Socket.fullReads
      { pending := socket.pending.drop len, sched := socket.sched.tail, sent := socket.sent } := by
  obtain ⟨pending, sched, sent⟩ := socket
  cases sched with
  | nil =>
    refine ⟨?_, fun o ho => absurd ho (List.not_mem_nil o)⟩
    simp only [recv, List.tail_nil]
    rw [Nat.min_eq_left hp]
  | cons o rest =>
    obtain ⟨cap, ho, hcap⟩ := isFull_upTo o (h o (List.mem_cons_self _ _))
    subst ho
    refine ⟨?_, fun o ho => h o (List.mem_cons_of_mem _ ho)⟩
    simp only [recv, List.tail_cons]
    rw [Nat.min_eq_left (Nat.le_trans hlen hcap), Nat.min_eq_left hp]

theorem recvLoop_fullReads (chunkSize : Nat) (hc : chunkSize < 2 ^ 32) (fuel : Nat) :
    ∀ (socket : Socket) (done data tail rest : List Nat) (bufferSize : Nat),
      socket.fullReads → socket.pending = data ++ rest →
      done.length + data.length = chunkSize → data.length ≤ tail.length →
      data.length ≤ fuel → 1 ≤ bufferSize → bufferSize ≤ 8 →
      ∃ sched', recvLoop chunkSize fuel socket (done ++ tail) done.length bufferSize =
        ({ pending := rest, sched := sched', sent := socket.sent },
          done ++ data ++ tail.drop data.length, chunkSize) ∧
        Socket.fullReads { pending := rest, sched := sched', sent := socket.sent } := by
  induction fuel with
  | zero =>
    intro socket done data tail rest bufferSize hfull hpend hlen _ hfuel _ _
    have hd : data = [] := List.length_eq_zero.mp (Nat.le_zero.mp hfuel)
    subst hd
    obtain ⟨pending, sched, sent⟩ := socket
    simp only [List.nil_append] at hpend
    subst hpend
    simp only [List.length_nil, Nat.add_zero] at hlen
    exact ⟨sched, by simp [recvLoop, hlen], hfull⟩
  | succ f ih =>
    intro socket done data tail rest bufferSize hfull hpend hlen htail hfuel hb1 hb8
    by_cases hpos : done.length < chunkSize
    · -- one more read of `bs` bytes
      have hbs : ∃ bs, bs = min bufferSize data.length ∧ 1 ≤ bs ∧ bs ≤ 8 ∧ bs ≤ data.length := by
        refine ⟨min bufferSize data.length, rfl, ?_, ?_, ?_⟩ <;> omega
      obtain ⟨bs, hbsdef, hbs1, hbs8, hbsd⟩ := hbs
      have hif1 : (if chunkSize - done.length < bufferSize then chunkSize - done.length
          else bufferSize) = bs := by
        split <;> omega
      have hif2 : (if chunkSize < bs then chunkSize else bs) = bs := by
        split <;> omega
      have hpl : bs ≤ socket.pending.length := by
        rw [hpend, List.length_append]; omega
      obtain ⟨hrecv, hfull'⟩ := recv_fullReads socket bs hfull hbs8 hpl
      have htake : socket.pending.take bs = data.take bs := by
        rw [hpend, List.take_append_of_le_length hbsd]
      have hdrop : socket.pending.drop bs = data.drop bs ++ rest := by
        rw [hpend, List.drop_append_of_le_length hbsd]
      have hwrite : writeAt (done ++ tail) done.length (data.take bs) =
          (done ++ data.take bs) ++ tail.drop bs := by
        unfold writeAt
        rw [List.take_left' rfl, List.length_take, Nat.min_eq_left hbsd,
          List.drop_append_eq_append_drop]
        have e1 : List.drop (done.length + bs) done = [] :=
          List.drop_eq_nil_of_le (by omega)
        rw [e1, List.nil_append]
        congr 2
        omega
      have hnext : (done.length + bs) % 2 ^ 32 = (done ++ data.take bs).length := by
        rw [List.length_append, List.length_take, Nat.min_eq_left hbsd]
        exact Nat.mod_eq_of_lt (by omega)
      obtain ⟨sched', hloop, hfr⟩ := ih
        { pending := socket.pending.drop bs, sched := socket.sched.tail, sent := socket.sent }
        (done ++ data.take bs) (data.drop bs) (tail.drop bs) rest bs hfull' hdrop
        (by rw [List.length_append, List.length_take, List.length_drop]; omega)
        (by rw [List.length_drop, List.length_drop]; omega)
        (by rw [List.length_drop]; omega) hbs1 hbs8
      refine ⟨sched', ?_, hfr⟩
      rw [recvLoop]
      simp only [hpos, if_true, hif1, hif2, hrecv, htake, hwrite, hnext]
      rw [hloop]
      simp only [List.append_assoc, List.take_append_drop, List.drop_drop, List.length_drop,
        Prod.mk.injEq, true_and, and_true, List.append_cancel_left_eq]
      congr 1
      omega
    · have hd : data = [] := List.length_eq_zero.mp (by omega)
      subst hd
      obtain ⟨pending, sched, sent⟩ := socket
      simp only [List.nil_append] at hpend
      subst hpend
      simp only [List.length_nil, Nat.add_zero] at hlen
      exact ⟨sched, by simp [recvLoop, hlen], hfull⟩



theorem recv_nextReadFull (socket : Socket) (len : Nat) (h : socket.nextReadFull)
    (hlen : len ≤ 8) (hp : len ≤ socket.pending.length) :
    recv socket len = ((len : Int), socket.pending.take len,
      { pending := socket.pending.drop len, sched := socket.sched.tail, sent := socket.sent }) := by
  obtain ⟨pending, sched, sent⟩ := socket
  cases sched with
  | nil =>
    simp only [recv, List.tail_nil]
    rw [Nat.min_eq_left hp]
  | cons o rest =>
    have ho : o.isFull = true := h
    obtain ⟨cap, ho', hcap⟩ := isFull_upTo o ho
    subst ho'
    simp only [recv, List.tail_cons]
    rw [Nat.min_eq_left (Nat.le_trans hlen hcap), Nat.min_eq_left hp]

theorem fullReads_nextReadFull (socket : Socket) (h : socket.fullReads) :
    socket.nextReadFull := by
  obtain ⟨pending, sched, sent⟩ := socket
  cases sched with
  | nil => rfl
  | cons o rest => exact h o (List.mem_cons_self _ _)

theorem fullReads_tail (socket : Socket) (h : socket.fullReads) (p : List Nat) :
    Socket.fullReads { pending := p, sched := socket.sched.tail, sent := socket.sent } :=
  fun o ho => h o (List.mem_of_mem_tail ho)

theorem set_last_drop (l : List Nat) (n : Nat) (h : l.length = n + 1) :
    (l.set n 0).drop n = [0] := by
  apply List.ext_getElem
  · simp [h]
  · intro i h1 h2
    simp only [List.length_singleton] at h2
    have hi : i = 0 := by omega
    subst hi
    simp [List.getElem_drop, List.getElem_set]

theorem RecvChunk_fullReads (fresh : Nat → Nat) (socket : Socket) (payload rest : List Nat)
    (hfull : socket.fullReads) (hpend : socket.pending = payload ++ rest)
    (hlen : payload.length + 1 < 2 ^ 32) :
    ∃ sched', RecvChunk fresh socket payload.length =
        some ({ pending := rest, sched := sched', sent := socket.sent }, payload ++ [0]) ∧
      Socket.fullReads { pending := rest, sched := sched', sent := socket.sent } := by
  have halloc : allocSize payload.length = payload.length + 1 := Nat.mod_eq_of_lt hlen
  obtain ⟨sched', hloop, hfr⟩ := recvLoop_fullReads payload.length (by omega) payload.length
    socket [] payload (((List.range (payload.length + 1)).map fresh).set payload.length 0)
    rest 8 hfull hpend (by simp) (by simp) (Nat.le_refl _) (by decide) (by decide)
  refine ⟨sched', ?_, hfr⟩
  simp only [List.nil_append, List.length_nil] at hloop
  unfold RecvChunk
  rw [halloc]
  simp only [Nat.not_succ_le_self, if_false, hloop]
  rw [set_last_drop _ _ (by simp)]

theorem list_length_eight (hdr : List Nat) (h : hdr.length = 8) :
    ∃ b0 b1 b2 b3 b4 b5 b6 b7, hdr = [b0, b1, b2, b3, b4, b5, b6, b7] := by
  rcases hdr with _ | ⟨b0, _ | ⟨b1, _ | ⟨b2, _ | ⟨b3, _ | ⟨b4, _ | ⟨b5, _ | ⟨b6, _ | ⟨b7, _ | ⟨b8, t⟩⟩⟩⟩⟩⟩⟩⟩⟩ <;>
    simp at h
  exact ⟨b0, b1, b2, b3, b4, b5, b6, b7, rfl⟩

/-- One iteration of the receive loop on a header that arrives in one read. -/
theorem handlerStep_header (g : Globals) (fresh : Nat → Nat) (c : Session)
    (hdr rest : List Nat) (hnext : c.socket.nextReadFull) (hpend : c.socket.pending = hdr ++ rest)
    (hlen : hdr.length = 8) :
    handlerStep g fresh c =
      if ntohl (hdr.take 4) ≠ g.ipcVer32 then
        (Phase.Closed,
          { c with
            socket := { pending := rest, sched := c.socket.sched.tail, sent := c.socket.sent }
            rxRaw := writeAt c.rxRaw 0 hdr })
      else
        processFrame g fresh
          { c with
            socket := { pending := rest, sched := c.socket.sched.tail, sent := c.socket.sent }
            rxRaw := writeAt c.rxRaw 0 hdr } (ntohl (hdr.drop 4)) := by
  have hrecv := recv_nextReadFull c.socket 8 hnext (Nat.le_refl 8)
    (by rw [hpend, List.length_append]; omega)
  have htake : c.socket.pending.take 8 = hdr := by
    rw [hpend, ← hlen, List.take_left' rfl]
  have hdrop : c.socket.pending.drop 8 = rest := by
    rw [hpend, ← hlen, List.drop_left' rfl]
  rw [htake, hdrop] at hrecv
  obtain ⟨b0, b1, b2, b3, b4, b5, b6, b7, rfl⟩ := list_length_eight hdr hlen
  have hv : ntohl ((writeAt c.rxRaw 0 [b0, b1, b2, b3, b4, b5, b6, b7]).take 4) =
      ntohl ([b0, b1, b2, b3, b4, b5, b6, b7].take 4) := by
    simp [writeAt]
  have hl : ntohl ((writeAt c.rxRaw 0 [b0, b1, b2, b3, b4, b5, b6, b7]).drop 4) =
      ntohl ([b0, b1, b2, b3, b4, b5, b6, b7].drop 4) := by
    simp [writeAt, ntohl]
  unfold handlerStep
  simp only [hrecv, hv, hl]
  simp



/-! ## Connection handler -/

/-- C3: a header whose version field differs from `IPC_VER` closes the
connection. When the 8 bytes `hdr` arrive in one read and the version decoded
from them is not `(u_int32_t) IPC_VER`, then whatever the length field `hdr`
carries and whatever bytes `rest` follow, the iteration ends in `Closed`, the
send log is unchanged (no bytes sent), `rest` is still pending (no payload
read) and the server state, registry included, is unchanged. The last conjunct
is the same fact for any outcome of the header read: if the version decoded from
`rxRaw` after the read differs, the iteration closes and touches nothing but the
bytes that read consumed. -/
theorem version_mismatch_closes (g : Globals) (fresh : Nat → Nat) (c : Session)
    (hdr rest : List Nat) (hnext : c.socket.nextReadFull)
    (hpend : c.socket.pending = hdr ++ rest) (hlen : hdr.length = 8)
    (hver : ntohl (hdr.take 4) ≠ g.ipcVer32) :
    (handlerStep g fresh c).1 = Phase.Closed ∧
    (handlerStep g fresh c).2.socket.sent = c.socket.sent ∧
    (handlerStep g fresh c).2.socket.pending = rest ∧
    (handlerStep g fresh c).2.srv = c.srv ∧
    ∀ c' : Session,
      ntohl ((writeAt c'.rxRaw 0 (recv c'.socket 8).2.1).take 4) ≠ g.ipcVer32 →
      (handlerStep g fresh c').1 = Phase.Closed ∧
      (handlerStep g fresh c').2.srv = c'.srv ∧
      (handlerStep g fresh c').2.socket = (recv c'.socket 8).2.2 := by
  refine ⟨?_, ?_, ?_, ?_, ?_⟩
  · rw [handlerStep_header g fresh c hdr rest hnext hpend hlen]
    simp only [hver, ne_eq, not_false_eq_true, if_true]
  · rw [handlerStep_header g fresh c hdr rest hnext hpend hlen]
    simp only [hver, ne_eq, not_false_eq_true, if_true]
  · rw [handlerStep_header g fresh c hdr rest hnext hpend hlen]
    simp only [hver, ne_eq, not_false_eq_true, if_true]
  · rw [handlerStep_header g fresh c hdr rest hnext hpend hlen]
    simp only [hver, ne_eq, not_false_eq_true, if_true]
  · intro c' hv
    unfold handlerStep
    by_cases hst : (recv c'.socket 8).1 ≤ 0
    · simp only [hst, if_true, and_self]
    · simp only [hst, if_false, hv, ne_eq, not_false_eq_true, if_true, and_self]

/-- Witness of C3: version 4 against `IPC_VER = 3`. -/
theorem version_mismatch_closes_witness :
    (handlerStep ⟨3, bytes "0.1"⟩ (fun _ => 0)
      ⟨IPCServer.init [], ⟨htonl 4 ++ htonl 10 ++ bytes "RABBITHOLE", [], []⟩,
        List.replicate 8 0⟩).1 = Phase.Closed :=
  (version_mismatch_closes ⟨3, bytes "0.1"⟩ (fun _ => 0)
    ⟨IPCServer.init [], ⟨htonl 4 ++ htonl 10 ++ bytes "RABBITHOLE", [], []⟩,
      List.replicate 8 0⟩ (htonl 4 ++ htonl 10) (bytes "RABBITHOLE") (by decide) rfl rfl
    (by decide)).1

theorem take_append_nul (lit payload : List Nat) (hlit : ∀ b ∈ lit, b ≠ 0) :
    (payload ++ [0]).take lit.length = lit ↔ payload.take lit.length = lit := by
  by_cases h : lit.length ≤ payload.length
  · rw [List.take_append_of_le_length h]
  · have hlt : payload.length < lit.length := Nat.lt_of_not_le h
    constructor
    · intro he
      exfalso
      have hmem : (0 : Nat) ∈ (payload ++ [0]).take lit.length := by
        rw [List.take_of_length_le (by simp; omega)]
        simp
      rw [he] at hmem
      exact hlit 0 hmem rfl
    · intro he
      exfalso
      have := congrArg List.length he
      rw [List.length_take] at this
      omega

theorem dispatch_unmatched (g : Globals) (s : IPCServer) (pkt : List Nat)
    (hR : pkt.take 10 ≠ bytes "RABBITHOLE") (hV : pkt.take 7 ≠ bytes "VERSION") :
    dispatch g s pkt = some (s, none) := by
  unfold dispatch
  rw [if_neg (fun h => hR ((strncmp_RABBITHOLE pkt).mp h)),
    if_neg (fun h => hV ((strncmp_VERSION pkt).mp h))]

theorem ResponseHandler_unmatched (g : Globals) (s : IPCServer) (socket : Socket)
    (pkt : List Nat) (hR : pkt.take 10 ≠ bytes "RABBITHOLE")
    (hV : pkt.take 7 ≠ bytes "VERSION") :
    s.ResponseHandler g socket pkt = some (s, socket) := by
  unfold IPCServer.ResponseHandler
  rw [dispatch_unmatched g s pkt hR hV]

theorem dispatch_VERSION (g : Globals) (s : IPCServer) (pkt : List Nat)
    (hW : ∀ b ∈ g.WONDERLAND_VER, b ≠ 0) (hWlen : g.WONDERLAND_VER.length + 5 < 2 ^ 32)
    (hR : pkt.take 10 ≠ bytes "RABBITHOLE") (hV : pkt.take 7 = bytes "VERSION") :
    dispatch g s pkt = some (s, some (g.WONDERLAND_VER ++ [0])) := by
  have hs : strlen (g.WONDERLAND_VER ++ [0]) = g.WONDERLAND_VER.length :=
    strlen_append_nul _ [] hW
  have h1 : g.WONDERLAND_VER.length % 2 ^ 32 = g.WONDERLAND_VER.length :=
    Nat.mod_eq_of_lt (by omega)
  have h2 : (g.WONDERLAND_VER.length + 1) % 2 ^ 32 = g.WONDERLAND_VER.length + 1 :=
    Nat.mod_eq_of_lt (by omega)
  unfold dispatch
  rw [if_neg (fun h => hR ((strncmp_RABBITHOLE pkt).mp h)),
    if_pos ((strncmp_VERSION pkt).mpr hV)]
  simp only [hs, h1, h2]
  rw [List.take_of_length_le (by simp)]

theorem ResponseHandler_VERSION (g : Globals) (s : IPCServer) (socket : Socket)
    (pkt : List Nat) (hW : ∀ b ∈ g.WONDERLAND_VER, b ≠ 0)
    (hWlen : g.WONDERLAND_VER.length + 5 < 2 ^ 32)
    (hR : pkt.take 10 ≠ bytes "RABBITHOLE") (hV : pkt.take 7 = bytes "VERSION") :
    s.ResponseHandler g socket pkt =
      some (s, send socket (htonl g.WONDERLAND_VER.length ++ g.WONDERLAND_VER)) := by
  unfold IPCServer.ResponseHandler
  rw [dispatch_VERSION g s pkt hW hWlen hR hV]
  simp only [sendPacket_cstring socket _ hW hWlen]

/-- An iteration of the receive loop on a request that arrives whole: the header
carries the server's version and the length of `payload`, and no read is cut
short. The payload buffer handed to `ResponseHandler` is `payload` and a NUL. -/
theorem handlerStep_request (g : Globals) (fresh : Nat → Nat) (c : Session)
    (payload rest : List Nat) (hfull : c.socket.fullReads)
    (hpend : c.socket.pending = htonl g.ipcVer32 ++ htonl payload.length ++ payload ++ rest)
    (hlen : payload.length + 1 < 2 ^ 32) :
    ∃ sched', handlerStep g fresh c =
      match c.srv.ResponseHandler g
          { pending := rest, sched := sched', sent := c.socket.sent } (payload ++ [0]) with
      | none =>
        (Phase.Fault,
          { c with
            socket := { pending := rest, sched := sched', sent := c.socket.sent }
            rxRaw := writeAt c.rxRaw 0 (htonl g.ipcVer32 ++ htonl payload.length) })
      | some (srv, socket2) =>
        (Phase.Receiving,
          { srv := srv, socket := socket2
            rxRaw := writeAt c.rxRaw 0 (htonl g.ipcVer32 ++ htonl payload.length) }) := by
  have hpend' : c.socket.pending =
      (htonl g.ipcVer32 ++ htonl payload.length) ++ (payload ++ rest) := by
    rw [hpend]; simp only [List.append_assoc]
  have hstep := handlerStep_header g fresh c (htonl g.ipcVer32 ++ htonl payload.length)
    (payload ++ rest) (fullReads_nextReadFull _ hfull) hpend' rfl
  have hv : ntohl ((htonl g.ipcVer32 ++ htonl payload.length).take 4) = g.ipcVer32 := by
    have : (htonl g.ipcVer32 ++ htonl payload.length).take 4 = htonl g.ipcVer32 ++ [] := rfl
    rw [this, ntohl_htonl, Nat.mod_eq_of_lt (ipcVer32_lt g)]
  have hl : ntohl ((htonl g.ipcVer32 ++ htonl payload.length).drop 4) = payload.length := by
    have : (htonl g.ipcVer32 ++ htonl payload.length).drop 4 = htonl payload.length ++ [] := rfl
    rw [this, ntohl_htonl, Nat.mod_eq_of_lt (by omega)]
  rw [hv, hl] at hstep
  simp only [ne_eq, not_true_eq_false, if_false] at hstep
  obtain ⟨sched', hchunk, -⟩ := RecvChunk_fullReads fresh
    { pending := payload ++ rest, sched := c.socket.sched.tail, sent := c.socket.sent }
    payload rest (fullReads_tail _ hfull _) rfl hlen
  refine ⟨sched', ?_⟩
  rw [hstep]
  unfold processFrame
  simp only [hchunk]



/-- An unmatched request whose payload is shorter than `2 ^ 32 - 1` bytes and
arrives whole is ignored: nothing is sent, the server state is unchanged, the
request is consumed and the iteration stays in `Receiving`. -/
theorem unmatched_request_ignored (g : Globals) (fresh : Nat → Nat) (c : Session)
    (payload rest : List Nat) (hfull : c.socket.fullReads)
    (hpend : c.socket.pending = htonl g.ipcVer32 ++ htonl payload.length ++ payload ++ rest)
    (hlen : payload.length + 1 < 2 ^ 32)
    (hR : payload.take 10 ≠ bytes "RABBITHOLE") (hV : payload.take 7 ≠ bytes "VERSION") :
    ∃ sched', handlerStep g fresh c =
      (Phase.Receiving,
        { srv := c.srv
          socket := { pending := rest, sched := sched', sent := c.socket.sent }
          rxRaw := writeAt c.rxRaw 0 (htonl g.ipcVer32 ++ htonl payload.length) }) := by
  obtain ⟨sched', hstep⟩ := handlerStep_request g fresh c payload rest hfull hpend hlen
  refine ⟨sched', ?_⟩
  have hR' : (payload ++ [0]).take 10 ≠ bytes "RABBITHOLE" :=
    fun h => hR ((take_append_nul (bytes "RABBITHOLE") payload bytes_RABBITHOLE_ne_zero).mp h)
  have hV' : (payload ++ [0]).take 7 ≠ bytes "VERSION" :=
    fun h => hV ((take_append_nul (bytes "VERSION") payload bytes_VERSION_ne_zero).mp h)
  rw [hstep, ResponseHandler_unmatched g c.srv _ _ hR' hV']

theorem handlerStep_max_length (rest : List Nat) :
    handlerStep ⟨1, bytes "0.1"⟩ (fun _ => 0)
      ⟨IPCServer.init [], ⟨htonl 1 ++ htonl (2 ^ 32 - 1) ++ rest, [], []⟩, List.replicate 8 0⟩ =
    (Phase.Fault,
      ⟨IPCServer.init [], ⟨rest, [], []⟩, htonl 1 ++ htonl (2 ^ 32 - 1)⟩) := by
  have h := handlerStep_header ⟨1, bytes "0.1"⟩ (fun _ => 0)
    ⟨IPCServer.init [], ⟨htonl 1 ++ htonl (2 ^ 32 - 1) ++ rest, [], []⟩, List.replicate 8 0⟩
    (htonl 1 ++ htonl (2 ^ 32 - 1)) rest rfl (by simp only [List.append_assoc]) rfl
  have hv : ntohl ((htonl 1 ++ htonl (2 ^ 32 - 1)).take 4) =
      Globals.ipcVer32 ⟨1, bytes "0.1"⟩ := by decide
  have hl : ntohl ((htonl 1 ++ htonl (2 ^ 32 - 1)).drop 4) = 2 ^ 32 - 1 := by decide
  rw [hv, hl] at h
  simp only [ne_eq, not_true_eq_false, if_false] at h
  rw [h]
  have hchunk : ∀ socket, RecvChunk (fun _ => 0) socket (2 ^ 32 - 1) = none := by
    intro socket
    unfold RecvChunk
    rw [if_pos (by decide)]
  simp only [processFrame, hchunk]
  rfl

/-- C5 fails on the code: a request with the server's version, length field
`2 ^ 32 - 1` and that many zero bytes as payload matches neither command, yet the
iteration does not stay in `Receiving`. `RecvChunk` allocates
`(2 ^ 32 - 1 + 1) mod 2 ^ 32 = 0` bytes and writes the terminator at index
`2 ^ 32 - 1`, outside the allocation. -/
theorem unmatched_request_max_length :
    (List.replicate (2 ^ 32 - 1) 0).length = 2 ^ 32 - 1 ∧
    (List.replicate (2 ^ 32 - 1) 0).take 10 ≠ bytes "RABBITHOLE" ∧
    (List.replicate (2 ^ 32 - 1) 0).take 7 ≠ bytes "VERSION" ∧
    allocSize (2 ^ 32 - 1) = 0 ∧
    (handlerStep ⟨1, bytes "0.1"⟩ (fun _ => 0)
      ⟨IPCServer.init [],
        ⟨htonl 1 ++ htonl (2 ^ 32 - 1) ++ List.replicate (2 ^ 32 - 1) 0, [], []⟩,
        List.replicate 8 0⟩).1 = Phase.Fault := by
  refine ⟨List.length_replicate _ _, ?_, ?_, by decide, ?_⟩
  · intro h
    have := congrArg (fun l => l.head?) h
    simp only [List.head?_take] at this
    revert this
    rw [show (2 : Nat) ^ 32 - 1 = 4294967294 + 1 from rfl, List.replicate_succ]
    decide
  · intro h
    have := congrArg (fun l => l.head?) h
    simp only [List.head?_take] at this
    revert this
    rw [show (2 : Nat) ^ 32 - 1 = 4294967294 + 1 from rfl, List.replicate_succ]
    decide
  · rw [handlerStep_max_length]

/-- The reply to `VERSION` when the payload read delivers the payload. With
`WONDERLAND_VER` a C string literal (no embedded NUL, short enough for a 32-bit
frame), the dispatcher answers the payload `VERSION` by sending exactly the 4-byte big-endian length of
`WONDERLAND_VER` followed by its bytes, and leaves the server state unchanged
(no channel is created). Hence an iteration whose payload read returned that
payload stays in `Receiving`; and for a request that arrives whole on the wire,
header `[IPC_VER][7]` then `VERSION`, the iteration consumes exactly the
request, sends exactly that frame and stays in `Receiving`. -/
theorem VERSION_request_reply (g : Globals) (fresh : Nat → Nat) (c : Session)
    (socket1 : Socket) (payloadLen : Nat) (rest : List Nat)
    (hW : ∀ b ∈ g.WONDERLAND_VER, b ≠ 0) (hWlen : g.WONDERLAND_VER.length + 5 < 2 ^ 32) :
    c.srv.ResponseHandler g socket1 (cstr "VERSION") =
      some (c.srv, send socket1 (htonl g.WONDERLAND_VER.length ++ g.WONDERLAND_VER)) ∧
    (RecvChunk fresh c.socket payloadLen = some (socket1, cstr "VERSION") →
      processFrame g fresh c payloadLen =
        (Phase.Receiving,
          { c with
            socket := send socket1 (htonl g.WONDERLAND_VER.length ++ g.WONDERLAND_VER) })) ∧
    (c.socket.fullReads →
      c.socket.pending = htonl g.ipcVer32 ++ htonl 7 ++ bytes "VERSION" ++ rest →
      ∃ sched', handlerStep g fresh c =
        (Phase.Receiving,
          { srv := c.srv
            socket :=
              { pending := rest, sched := sched'
                sent := c.socket.sent ++ [htonl g.WONDERLAND_VER.length ++ g.WONDERLAND_VER] }
            rxRaw := writeAt c.rxRaw 0 (htonl g.ipcVer32 ++ htonl 7) })) := by
  have hdisp : ∀ socket : Socket, c.srv.ResponseHandler g socket (cstr "VERSION") =
      some (c.srv, send socket (htonl g.WONDERLAND_VER.length ++ g.WONDERLAND_VER)) :=
    fun socket => ResponseHandler_VERSION g c.srv socket _ hW hWlen (by decide) (by decide)
  refine ⟨hdisp socket1, ?_, ?_⟩
  · intro hchunk
    unfold processFrame
    simp only [hchunk, hdisp socket1]
  · intro hfull hpend
    obtain ⟨sched', hstep⟩ := handlerStep_request g fresh c (bytes "VERSION") rest hfull hpend
      (by decide)
    refine ⟨sched', ?_⟩
    have := hdisp { pending := rest, sched := sched', sent := c.socket.sent }
    rw [cstr] at this
    rw [hstep, this]
    rfl

/-- Example of a `VERSION` request read whole: `IPC_VER = 3`,
`WONDERLAND_VER = "0.1"`, two more bytes pending after the request. -/
theorem VERSION_request_reply_witness :
    ∃ sched', handlerStep ⟨3, bytes "0.1"⟩ (fun _ => 170)
        ⟨IPCServer.init [], ⟨htonl 3 ++ htonl 7 ++ bytes "VERSION" ++ [1, 2], [], []⟩,
          List.replicate 8 9⟩ =
      (Phase.Receiving,
        ⟨IPCServer.init [], ⟨[1, 2], sched', [[0, 0, 0, 3, 48, 46, 49]]⟩,
          [0, 0, 0, 3, 0, 0, 0, 7]⟩) :=
  (VERSION_request_reply ⟨3, bytes "0.1"⟩ (fun _ => 170)
    ⟨IPCServer.init [], ⟨htonl 3 ++ htonl 7 ++ bytes "VERSION" ++ [1, 2], [], []⟩,
      List.replicate 8 9⟩ ⟨[], [], []⟩ 7 [1, 2] (by decide) (by decide)).2.2
    (by decide) rfl

/-- C6 fails on the code: a `VERSION` request whose payload arrives in two
pieces gets no reply. With `IPC_VER = 3` and `WONDERLAND_VER = "0.1"`, the
request `00 00 00 03 00 00 00 07 VERSION` read whole is answered with the frame
`00 00 00 03 0.1`. When the payload `recv`, asking for 7 bytes, returns the 3
bytes `VER`, `RecvChunk` still advances by 7: the buffer is `VER` followed by
what the fresh allocation held (zero bytes, or `AA` bytes), it does not match
`VERSION`, nothing is sent, and the bytes `SION` stay unread on the
connection. -/
theorem VERSION_request_short_read_unanswered :
    handlerStep ⟨3, bytes "0.1"⟩ (fun _ => 0)
        ⟨IPCServer.init [], ⟨htonl 3 ++ htonl 7 ++ bytes "VERSION", [], []⟩,
          List.replicate 8 0⟩ =
      (Phase.Receiving,
        ⟨IPCServer.init [], ⟨[], [], [htonl 3 ++ bytes "0.1"]⟩, htonl 3 ++ htonl 7⟩) ∧
    (recv ⟨bytes "VERSION", [RecvOutcome.upTo 3], []⟩ 7).1 = 3 ∧
    handlerStep ⟨3, bytes "0.1"⟩ (fun _ => 0)
        ⟨IPCServer.init [],
          ⟨htonl 3 ++ htonl 7 ++ bytes "VERSION", [RecvOutcome.upTo 8, RecvOutcome.upTo 3], []⟩,
          List.replicate 8 0⟩ =
      (Phase.Receiving,
        ⟨IPCServer.init [], ⟨bytes "SION", [], []⟩, htonl 3 ++ htonl 7⟩) ∧
    handlerStep ⟨3, bytes "0.1"⟩ (fun _ => 170)
        ⟨IPCServer.init [],
          ⟨htonl 3 ++ htonl 7 ++ bytes "VERSION", [RecvOutcome.upTo 8, RecvOutcome.upTo 3], []⟩,
          List.replicate 8 0⟩ =
      (Phase.Receiving,
        ⟨IPCServer.init [], ⟨bytes "SION", [], []⟩, htonl 3 ++ htonl 7⟩) := by
  refine ⟨by decide, by decide, by decide, by decide⟩

theorem send_ne_self (socket : Socket) (frame : List Nat) : socket ≠ send socket frame := by
  intro h
  have := congrArg (fun x => x.sent.length) h
  simp [send] at this

/-- C4: command matching is by prefix. On a registry as the server builds it
and with `WONDERLAND_VER` a C string literal, `ResponseHandler` applied to the
buffer of a request `payload` (the payload and the NUL that `RecvChunk` appends)
sends a frame if and only if the first 10 bytes of `payload` are `RABBITHOLE` or
its first 7 bytes are `VERSION`; otherwise nothing is sent and nothing changes.
A payload shorter than 10 bytes never matches `RABBITHOLE`, and one shorter than
7 bytes (the empty one included) gets no response. Bytes that follow a literal
do not matter: the outcome equals that of the bare literal. -/
theorem command_matching_by_prefix (g : Globals) (s : IPCServer) (socket : Socket)
    (payload trailing : List Nat) (hs : s.Wf) (hW : ∀ b ∈ g.WONDERLAND_VER, b ≠ 0)
    (hWlen : g.WONDERLAND_VER.length + 5 < 2 ^ 32) :
    ((∃ srv frame, s.ResponseHandler g socket (payload ++ [0]) = some (srv, send socket frame)) ↔
      (payload.take 10 = bytes "RABBITHOLE" ∨ payload.take 7 = bytes "VERSION")) ∧
    (¬ (payload.take 10 = bytes "RABBITHOLE" ∨ payload.take 7 = bytes "VERSION") →
      s.ResponseHandler g socket (payload ++ [0]) = some (s, socket)) ∧
    (payload.length < 10 → payload.take 10 ≠ bytes "RABBITHOLE") ∧
    (payload.length < 7 → s.ResponseHandler g socket (payload ++ [0]) = some (s, socket)) ∧
    s.ResponseHandler g socket (bytes "RABBITHOLE" ++ trailing ++ [0]) =
      s.ResponseHandler g socket (bytes "RABBITHOLE" ++ [0]) ∧
    s.ResponseHandler g socket (bytes "VERSION" ++ trailing ++ [0]) =
      s.ResponseHandler g socket (bytes "VERSION" ++ [0]) := by
  have hRiff := take_append_nul (bytes "RABBITHOLE") payload bytes_RABBITHOLE_ne_zero
  have hViff := take_append_nul (bytes "VERSION") payload bytes_VERSION_ne_zero
  have hshortR : payload.length < 10 → payload.take 10 ≠ bytes "RABBITHOLE" := by
    intro hl h
    have := congrArg List.length h
    rw [List.length_take] at this
    have h10 : (bytes "RABBITHOLE").length = 10 := rfl
    omega
  have hshortV : payload.length < 7 → payload.take 7 ≠ bytes "VERSION" := by
    intro hl h
    have := congrArg List.length h
    rw [List.length_take] at this
    have h7 : (bytes "VERSION").length = 7 := rfl
    omega
  have hnone : ¬ (payload.take 10 = bytes "RABBITHOLE" ∨ payload.take 7 = bytes "VERSION") →
      s.ResponseHandler g socket (payload ++ [0]) = some (s, socket) := by
    intro h
    exact ResponseHandler_unmatched g s socket _ (fun h1 => h (Or.inl (hRiff.mp h1)))
      (fun h1 => h (Or.inr (hViff.mp h1)))
  refine ⟨⟨?_, ?_⟩, hnone, hshortR, ?_, ?_, ?_⟩
  · rintro ⟨srv, frame, hresp⟩
    by_contra hno
    rw [hnone hno] at hresp
    exact send_ne_self socket frame (congrArg Prod.snd (Option.some.inj hresp))
  · intro h
    by_cases hR : payload.take 10 = bytes "RABBITHOLE"
    · exact ⟨_, _, ResponseHandler_RABBITHOLE g s socket _ hs (hRiff.mpr hR)⟩
    · have hV : payload.take 7 = bytes "VERSION" := h.resolve_left hR
      exact ⟨_, _, ResponseHandler_VERSION g s socket _ hW hWlen
        (fun h1 => hR (hRiff.mp h1)) (hViff.mpr hV)⟩
  · intro hl
    exact hnone (fun h => h.elim (hshortR (by omega)) (hshortV hl))
  · have e1 : (bytes "RABBITHOLE" ++ trailing ++ [0]).take 10 = bytes "RABBITHOLE" := by
      rw [List.append_assoc]; exact List.take_left' rfl
    rw [ResponseHandler_RABBITHOLE g s socket (bytes "RABBITHOLE" ++ trailing ++ [0]) hs e1,
      ResponseHandler_RABBITHOLE g s socket (bytes "RABBITHOLE" ++ [0]) hs (by decide)]
  · have hVR : ∀ t : List Nat, (bytes "VERSION" ++ t).take 10 ≠ bytes "RABBITHOLE" := by
      intro t h
      have h2 : ((bytes "VERSION" ++ t).take 10).head? = (bytes "RABBITHOLE").head? :=
        congrArg List.head? h
      have h3 : ((bytes "VERSION" ++ t).take 10).head? = some 86 := rfl
      rw [h3] at h2
      exact absurd h2 (by decide)
    have e1 : (bytes "VERSION" ++ trailing ++ [0]).take 7 = bytes "VERSION" := by
      rw [List.append_assoc]; exact List.take_left' rfl
    have e2 : (bytes "VERSION" ++ trailing ++ [0]).take 10 ≠ bytes "RABBITHOLE" := by
      rw [List.append_assoc]; exact hVR _
    rw [ResponseHandler_VERSION g s socket (bytes "VERSION" ++ trailing ++ [0]) hW hWlen e2 e1,
      ResponseHandler_VERSION g s socket (bytes "VERSION" ++ [0]) hW hWlen (hVR _) (by decide)]

/-- Witness of C4: `RABBIT` gets no response, `VERSION?` is handled like
`VERSION`. -/
theorem command_matching_by_prefix_witness :
    (IPCServer.init []).ResponseHandler ⟨3, bytes "0.1"⟩ ⟨[], [], []⟩ (bytes "RABBIT" ++ [0]) =
        some (IPCServer.init [], ⟨[], [], []⟩) ∧
      (IPCServer.init []).ResponseHandler ⟨3, bytes "0.1"⟩ ⟨[], [], []⟩
          (bytes "VERSION" ++ bytes "?" ++ [0]) =
        (IPCServer.init []).ResponseHandler ⟨3, bytes "0.1"⟩ ⟨[], [], []⟩
          (bytes "VERSION" ++ [0]) :=
  have h := command_matching_by_prefix ⟨3, bytes "0.1"⟩ (IPCServer.init []) ⟨[], [], []⟩
    (bytes "RABBIT") (bytes "?") (by decide) (by decide) (by decide)
  ⟨h.2.2.2.1 (by decide), h.2.2.2.2.2⟩

/-- C7 (amended): response framing. For a NUL-free payload `p` with
`length p + 5 < 2 ^ 32`, held in a NUL-terminated buffer, the bytes passed to
`send` are exactly the big-endian 32-bit length of `p` followed by `p`, and
this is what `ResponseHandler` sends whenever its command matching produced that
buffer. The frame is `4 + length p` bytes long, what follows the first four
bytes is `p` itself (no version field, no terminator), and decoding the first
four bytes gives the number of bytes that follow. -/
theorem response_framing (socket : Socket) (p : List Nat) (hp : ∀ b ∈ p, b ≠ 0)
    (hlen : p.length + 5 < 2 ^ 32) :
    sendPacket socket (p ++ [0]) = some (send socket (htonl p.length ++ p)) ∧
    (∀ (g : Globals) (srv srv' : IPCServer) (pkt : List Nat),
      dispatch g srv pkt = some (srv', some (p ++ [0])) →
      srv.ResponseHandler g socket pkt = some (srv', send socket (htonl p.length ++ p))) ∧
    (htonl p.length ++ p).length = 4 + p.length ∧
    (htonl p.length ++ p).drop 4 = p ∧
    ntohl ((htonl p.length ++ p).take 4) = ((htonl p.length ++ p).drop 4).length := by
  have hsend := sendPacket_cstring socket p hp hlen
  refine ⟨hsend, ?_, ?_, rfl, ?_⟩
  · intro g srv srv' pkt hd
    unfold IPCServer.ResponseHandler
    simp only [hd, hsend]
  · rw [List.length_append, htonl_length]
  · have h1 : (htonl p.length ++ p).take 4 = htonl p.length ++ [] := by
      rw [List.append_nil]; exact List.take_left' rfl
    have h2 : (htonl p.length ++ p).drop 4 = p := rfl
    rw [h1, h2, ntohl_htonl]
    exact Nat.mod_eq_of_lt (by omega)

/-- Witness of C7: the payload `0.1` is framed as `00 00 00 03 30 2e 31`. -/
theorem response_framing_witness :
    sendPacket ⟨[], [], []⟩ (bytes "0.1" ++ [0]) =
      some (send ⟨[], [], []⟩ [0, 0, 0, 3, 48, 46, 49]) :=
  (response_framing ⟨[], [], []⟩ (bytes "0.1") (by decide) (by decide)).1

theorem sendPacket_wrap (M : Nat) (hM1 : 2 ^ 32 ≤ M + 5) (hM2 : M < 2 ^ 32)
    (socket : Socket) :
    (List.replicate M 65).length = M ∧
    (∀ b ∈ List.replicate M 65, b ≠ 0) ∧
    strlen (List.replicate M 65 ++ [0]) % 2 ^ 32 = M ∧
    sendPacket socket (List.replicate M 65 ++ [0]) = none := by
  have hnz : ∀ b ∈ List.replicate M 65, b ≠ 0 := by
    intro b hb
    rw [List.eq_of_mem_replicate hb]
    decide
  have hs : strlen (List.replicate M 65 ++ [0]) = M := by
    rw [strlen_append_nul _ [] hnz, List.length_replicate]
  have hmod : M % 2 ^ 32 = M := Nat.mod_eq_of_lt hM2
  refine ⟨List.length_replicate _ _, hnz, by rw [hs, hmod], ?_⟩
  have hmem : (0 : Nat) ∈ List.replicate M 65 ++ [0] := by simp
  unfold sendPacket
  simp only [hmem, not_true_eq_false, if_false, hs, hmod]
  rw [if_pos (by omega)]

/-- C7 fails as stated, from `2 ^ 32 - 5` bytes on. For the NUL-free payload of
`2 ^ 32 - 5` bytes `A`, shorter than `2 ^ 32`, the packet is allocated with
`(4 + payloadSize + 1) mod 2 ^ 32 = 0` bytes and the copies into it overrun it.
For `2 ^ 32 - 4` bytes the length `4 + payloadSize` passed to `send` is `0` as
well. In neither case is the frame `BE32(length p) ++ p` sent. -/
theorem response_framing_wraps :
    ((List.replicate (2 ^ 32 - 5) 65).length = 2 ^ 32 - 5 ∧
      (∀ b ∈ List.replicate (2 ^ 32 - 5) 65, b ≠ 0) ∧
      strlen (List.replicate (2 ^ 32 - 5) 65 ++ [0]) % 2 ^ 32 = 2 ^ 32 - 5 ∧
      sendPacket ⟨[], [], []⟩ (List.replicate (2 ^ 32 - 5) 65 ++ [0]) = none) ∧
    (4 + (2 ^ 32 - 5) + 1) % 2 ^ 32 = 0 ∧
    ((List.replicate (2 ^ 32 - 4) 65).length = 2 ^ 32 - 4 ∧
      (∀ b ∈ List.replicate (2 ^ 32 - 4) 65, b ≠ 0) ∧
      strlen (List.replicate (2 ^ 32 - 4) 65 ++ [0]) % 2 ^ 32 = 2 ^ 32 - 4 ∧
      sendPacket ⟨[], [], []⟩ (List.replicate (2 ^ 32 - 4) 65 ++ [0]) = none) ∧
    (4 + (2 ^ 32 - 4)) % 2 ^ 32 = 0 :=
  ⟨sendPacket_wrap (2 ^ 32 - 5) (by decide) (by decide) ⟨[], [], []⟩, by decide,
    sendPacket_wrap (2 ^ 32 - 4) (by decide) (by decide) ⟨[], [], []⟩, by decide⟩

/-- C8: header decoding. For header bytes `b0 .. b7` the version is
`b0 * 2^24 + b1 * 2^16 + b2 * 2^8 + b3` and the payload length is
`b4 * 2^24 + b5 * 2^16 + b6 * 2^8 + b7`; the iteration that reads this header
closes when the version is not `(u_int32_t) IPC_VER` and otherwise goes on to
read a payload of exactly the decoded length. Every `L < 2 ^ 32` is the length
field of a header (`htonl L` are four bytes that decode to `L`), and with the
right version the iteration proceeds to read `L` payload bytes: no bound on the
length is checked. -/
theorem header_decoding (g : Globals) (fresh : Nat → Nat) (c : Session)
    (b0 b1 b2 b3 b4 b5 b6 b7 : Nat) (rest : List Nat) (L : Nat)
    (h0 : b0 < 256) (h1 : b1 < 256) (h2 : b2 < 256) (h3 : b3 < 256)
    (h4 : b4 < 256) (h5 : b5 < 256) (h6 : b6 < 256) (h7 : b7 < 256)
    (hnext : c.socket.nextReadFull)
    (hpend : c.socket.pending = [b0, b1, b2, b3, b4, b5, b6, b7] ++ rest)
    (hL : L < 2 ^ 32) :
    ntohl ([b0, b1, b2, b3, b4, b5, b6, b7].take 4) =
      b0 * 2 ^ 24 + b1 * 2 ^ 16 + b2 * 2 ^ 8 + b3 ∧
    ntohl ([b0, b1, b2, b3, b4, b5, b6, b7].drop 4) =
      b4 * 2 ^ 24 + b5 * 2 ^ 16 + b6 * 2 ^ 8 + b7 ∧
    handlerStep g fresh c =
      (if b0 * 2 ^ 24 + b1 * 2 ^ 16 + b2 * 2 ^ 8 + b3 ≠ g.ipcVer32 then
        (Phase.Closed,
          { c with
            socket := { pending := rest, sched := c.socket.sched.tail, sent := c.socket.sent }
            rxRaw := writeAt c.rxRaw 0 [b0, b1, b2, b3, b4, b5, b6, b7] })
      else
        processFrame g fresh
          { c with
            socket := { pending := rest, sched := c.socket.sched.tail, sent := c.socket.sent }
            rxRaw := writeAt c.rxRaw 0 [b0, b1, b2, b3, b4, b5, b6, b7] }
          (b4 * 2 ^ 24 + b5 * 2 ^ 16 + b6 * 2 ^ 8 + b7)) ∧
    (∀ b ∈ htonl L, b < 256) ∧
    ntohl (htonl L) = L ∧
    (∀ c' : Session, c'.socket.nextReadFull →
      c'.socket.pending = htonl g.ipcVer32 ++ htonl L ++ rest →
      handlerStep g fresh c' =
        processFrame g fresh
          { c' with
            socket := { pending := rest, sched := c'.socket.sched.tail, sent := c'.socket.sent }
            rxRaw := writeAt c'.rxRaw 0 (htonl g.ipcVer32 ++ htonl L) } L) := by
  have hv : ntohl ([b0, b1, b2, b3, b4, b5, b6, b7].take 4) =
      b0 * 2 ^ 24 + b1 * 2 ^ 16 + b2 * 2 ^ 8 + b3 := by
    simp only [ntohl, List.take, List.getD_cons_zero, List.getD_cons_succ]
    omega
  have hl : ntohl ([b0, b1, b2, b3, b4, b5, b6, b7].drop 4) =
      b4 * 2 ^ 24 + b5 * 2 ^ 16 + b6 * 2 ^ 8 + b7 := by
    simp only [ntohl, List.drop, List.getD_cons_zero, List.getD_cons_succ]
    omega
  refine ⟨hv, hl, ?_, ?_, ?_, ?_⟩
  · rw [handlerStep_header g fresh c _ rest hnext hpend rfl, hv, hl]
  · intro b hb
    simp only [htonl, List.mem_cons, List.mem_singleton, List.not_mem_nil, or_false] at hb
    omega
  · have := ntohl_htonl L []
    rw [List.append_nil] at this
    rw [this]
    exact Nat.mod_eq_of_lt hL
  · intro c' hnext' hpend'
    have hp : c'.socket.pending = (htonl g.ipcVer32 ++ htonl L) ++ rest := hpend'
    have hv' : ntohl ((htonl g.ipcVer32 ++ htonl L).take 4) = g.ipcVer32 := by
      have : (htonl g.ipcVer32 ++ htonl L).take 4 = htonl g.ipcVer32 ++ [] := rfl
      rw [this, ntohl_htonl, Nat.mod_eq_of_lt (ipcVer32_lt g)]
    have hl' : ntohl ((htonl g.ipcVer32 ++ htonl L).drop 4) = L := by
      have : (htonl g.ipcVer32 ++ htonl L).drop 4 = htonl L ++ [] := rfl
      rw [this, ntohl_htonl, Nat.mod_eq_of_lt hL]
    rw [handlerStep_header g fresh c' _ rest hnext' hp rfl, hv', hl']
    simp only [ne_eq, not_true_eq_false, if_false]

/-- Witness of C8: the header `00 00 01 02 00 00 00 07` has version 258 and
payload length 7. -/
theorem header_decoding_witness :
    ntohl ([0, 0, 1, 2, 0, 0, 0, 7].take 4) = 258 ∧ ntohl ([0, 0, 1, 2, 0, 0, 0, 7].drop 4) = 7 :=
  have h := header_decoding ⟨3, bytes "0.1"⟩ (fun _ => 0)
    ⟨IPCServer.init [], ⟨[0, 0, 1, 2, 0, 0, 0, 7], [], []⟩, List.replicate 8 0⟩
    0 0 1 2 0 0 0 7 [] 7 (by decide) (by decide) (by decide) (by decide) (by decide)
    (by decide) (by decide) (by decide) (by decide) rfl (by decide)
  ⟨h.1, h.2.1⟩



/-! ## Broadcast slots -/

theorem fillFirstFree_none (e : Nat) (slots : List Nat) :
    ∀ budget, (∀ x ∈ slots, x ≠ NULL) → fillFirstFree e budget slots = none := by
  induction slots with
  | nil => intro budget _; cases budget <;> rfl
  | cons x xs ih =>
    intro budget h
    cases budget with
    | zero => rfl
    | succ b =>
      have hx : x ≠ NULL := h x (List.mem_cons_self _ _)
      simp only [fillFirstFree, hx, if_false,
        ih b (fun y hy => h y (List.mem_cons_of_mem _ hy)), Option.map_none']

theorem fillFirstFree_lowest (e : Nat) (slots : List Nat) :
    ∀ budget i, slots.length ≤ budget → slots[i]? = some NULL →
      (∀ j, j < i → slots[j]? ≠ some NULL) →
      fillFirstFree e budget slots = some (slots.set i e) := by
  induction slots with
  | nil => intro budget i _ hi _; simp at hi
  | cons x xs ih =>
    intro budget i hb hi hlow
    cases budget with
    | zero => simp at hb
    | succ b =>
      cases i with
      | zero =>
        have hx : x = NULL := by simpa using hi
        simp only [fillFirstFree, hx, if_true, List.set_cons_zero]
      | succ i =>
        have hx : x ≠ NULL := by
          intro hx
          exact hlow 0 (Nat.succ_pos i) (by simp [hx])
        have hrec := ih b i (by simpa using hb) (by simpa using hi)
          (fun j hj => by simpa using hlow (j + 1) (Nat.succ_lt_succ hj))
        simp only [fillFirstFree, hx, if_false, hrec, Option.map_some', List.set_cons_succ]

theorem destroyLoop_map (e : Nat) (slots : List Nat) :
    ∀ (budget : Nat) (released : Bool), slots.length ≤ budget →
      (e = NULL ∨ (released = false ∧ slots.count e ≤ 1) ∨ e ∉ slots) →
      destroyLoop e budget released slots =
        some (slots.map (fun x => if e = x then NULL else x)) := by
  induction slots with
  | nil => intro budget released _ _; cases budget <;> rfl
  | cons x xs ih =>
    intro budget released hb hcase
    cases budget with
    | zero => simp at hb
    | succ b =>
      have hb' : xs.length ≤ b := by simpa using hb
      by_cases hex : e = x
      · subst hex
        rcases hcase with h | h | h
        · have hrec := ih b true hb' (Or.inl h)
          have hguard : ¬ (released = true ∧ e ≠ NULL) := fun hg => hg.2 h
          simp only [destroyLoop, if_true, hguard, if_false, hrec, Option.map_some',
            List.map_cons]
        · obtain ⟨hr, hc⟩ := h
          have hnot : e ∉ xs := by
            intro hmem
            have := List.count_pos_iff.mpr hmem
            simp only [List.count_cons_self] at hc
            omega
          have hrec := ih b true hb' (Or.inr (Or.inr hnot))
          simp only [destroyLoop, if_true, hr, Bool.false_eq_true, false_and, if_false, hrec,
            Option.map_some', List.map_cons]
        · exact absurd (List.mem_cons_self _ _) h
      · have hcase' : e = NULL ∨ (released = false ∧ xs.count e ≤ 1) ∨ e ∉ xs := by
          rcases hcase with h | h | h
          · exact Or.inl h
          · refine Or.inr (Or.inl ⟨h.1, ?_⟩)
            have := h.2
            rw [List.count_cons_of_ne hex] at this
            exact this
          · exact Or.inr (Or.inr (fun hm => h (List.mem_cons_of_mem _ hm)))
        have hrec := ih b released hb' hcase'
        simp only [destroyLoop, hex, if_false, hrec, Option.map_some', List.map_cons]



/-- `DestroyEvent` on a slot list of fewer than `2 ^ 32` slots and an event
that is null or held by at most one slot: it only tombstones. The call
returns; the slot list keeps its length; a slot that held `event` is empty;
a slot that held another value keeps it; the channel registry and the signal
log are unchanged; and a second `DestroyEvent` of the same event returns the
same state. -/
theorem DestroyEvent_only_tombstones (s : IPCServer) (e : Nat)
    (hlen : s.broadcastEvents.length < 2 ^ 32)
    (hone : e = NULL ∨ s.broadcastEvents.count e ≤ 1) :
    ∃ r : IPCServer, s.DestroyEvent e = some r ∧
      r.broadcastEvents.length = s.broadcastEvents.length ∧
      (∀ i : Nat, s.broadcastEvents[i]? = some e → r.broadcastEvents[i]? = some NULL) ∧
      (∀ (i x : Nat), s.broadcastEvents[i]? = some x → x ≠ e →
        r.broadcastEvents[i]? = some x) ∧
      r.clientComms = s.clientComms ∧ r.signalled = s.signalled ∧
      r.DestroyEvent e = some r := by
  have hmod : s.broadcastEvents.length % 2 ^ 32 = s.broadcastEvents.length :=
    Nat.mod_eq_of_lt hlen
  have hcase : e = NULL ∨ (false = false ∧ s.broadcastEvents.count e ≤ 1) ∨
      e ∉ s.broadcastEvents := by
    rcases hone with h | h
    · exact Or.inl h
    · exact Or.inr (Or.inl ⟨rfl, h⟩)
  have hrun := destroyLoop_map e s.broadcastEvents s.broadcastEvents.length false
    (Nat.le_refl _) hcase
  have hfirst : s.DestroyEvent e =
      some { s with broadcastEvents := s.broadcastEvents.map (fun x => if e = x then NULL else x) } := by
    simp only [IPCServer.DestroyEvent, hmod, hrun, Option.map_some']
  refine ⟨_, hfirst, by simp, ?_, ?_, rfl, rfl, ?_⟩
  · intro i hi
    simp only [List.getElem?_map, hi, Option.map_some', if_true]
  · intro i x hi hx
    simp only [List.getElem?_map, hi, Option.map_some', Ne.symm hx, if_false]
  · have hmod2 : (s.broadcastEvents.map (fun x => if e = x then NULL else x)).length % 2 ^ 32 =
        (s.broadcastEvents.map (fun x => if e = x then NULL else x)).length := by
      rw [List.length_map]; exact hmod
    have hcase2 : e = NULL ∨ (false = false ∧
        (s.broadcastEvents.map (fun x => if e = x then NULL else x)).count e ≤ 1) ∨
        e ∉ s.broadcastEvents.map (fun x => if e = x then NULL else x) := by
      by_cases he : e = NULL
      · exact Or.inl he
      · refine Or.inr (Or.inr ?_)
        intro hmem
        obtain ⟨x, -, hx⟩ := List.mem_map.mp hmem
        by_cases hex : e = x
        · rw [if_pos hex] at hx
          exact he hx.symm
        · rw [if_neg hex] at hx
          exact hex hx.symm
    have hrun2 := destroyLoop_map e (s.broadcastEvents.map (fun x => if e = x then NULL else x))
      _ false (Nat.le_refl _) hcase2
    have hidem : (s.broadcastEvents.map (fun x => if e = x then NULL else x)).map
        (fun x => if e = x then NULL else x) =
        s.broadcastEvents.map (fun x => if e = x then NULL else x) := by
      rw [List.map_map]
      apply List.map_congr_left
      intro x _
      simp only [Function.comp]
      by_cases hex : e = x
      · simp only [hex, if_true, ite_self]
      · simp only [hex, if_false]
    simp only [IPCServer.DestroyEvent, hmod2, hrun2, hidem, Option.map_some']

/-- Example: destroying 5 in the slots `5, NULL, 6` empties slot 0 and keeps
slot 2. -/
theorem DestroyEvent_only_tombstones_witness :
    ∃ r, (IPCServer.DestroyEvent { IPCServer.init [] with broadcastEvents := [5, 0, 6] } 5) =
        some r ∧ r.broadcastEvents[0]? = some NULL ∧ r.broadcastEvents[2]? = some 6 := by
  obtain ⟨r, h1, -, h3, h4, -⟩ := DestroyEvent_only_tombstones
    { IPCServer.init [] with broadcastEvents := [5, 0, 6] } 5 (by decide) (Or.inr (by decide))
  exact ⟨r, h1, h3 0 rfl, h4 2 6 rfl (by decide)⟩

/-- C10 fails on the code: `DestroyEvent` applies `delete` to every slot that
holds the event. Publishing event 5 twice from the empty slot list stores it in
the slots 0 and 1. `DestroyEvent(5)` then deletes the object at slot 0 and
deletes the same object again at slot 1, which has no defined result: the two
slots are not both left empty by a call that returns. -/
theorem DestroyEvent_deletes_twice :
    runOps (IPCServer.init []) [Op.publish 5, Op.publish 5] =
      some { IPCServer.init [] with broadcastEvents := [5, 5] } ∧
    IPCServer.DestroyEvent { IPCServer.init [] with broadcastEvents := [5, 5] } 5 = none ∧
    runOps (IPCServer.init []) [Op.publish 5, Op.publish 5, Op.destroy 5] = none := by
  refine ⟨by decide, by decide, by decide⟩


/-! ## Publish followed by remove -/

theorem SetEventForBroadcast_slots (s : IPCServer) (e : Nat)
    (hlen : s.broadcastEvents.length < 2 ^ 32) :
    (∃ k : Nat, s.broadcastEvents[k]? = some NULL ∧
        (∀ j, j < k → s.broadcastEvents[j]? ≠ some NULL) ∧
        (s.SetEventForBroadcast e).broadcastEvents = s.broadcastEvents.set k e) ∨
    ((∀ x ∈ s.broadcastEvents, x ≠ NULL) ∧
      (s.SetEventForBroadcast e).broadcastEvents = s.broadcastEvents ++ [e]) := by
  have hmod : s.broadcastEvents.length % 2 ^ 32 = s.broadcastEvents.length :=
    Nat.mod_eq_of_lt hlen
  by_cases hmem : NULL ∈ s.broadcastEvents
  · left
    have hex : ∃ k : Nat, s.broadcastEvents[k]? = some NULL := by
      obtain ⟨k, hk, hkn⟩ := List.getElem_of_mem hmem
      exact ⟨k, by rw [List.getElem?_eq_getElem hk, hkn]⟩
    refine ⟨Nat.find hex, Nat.find_spec hex, fun j hj => Nat.find_min hex hj, ?_⟩
    have hfill := fillFirstFree_lowest e s.broadcastEvents s.broadcastEvents.length
      (Nat.find hex) (Nat.le_refl _) (Nat.find_spec hex) (fun j hj => Nat.find_min hex hj)
    simp only [IPCServer.SetEventForBroadcast, hmod, hfill]
  · right
    have hall : ∀ x ∈ s.broadcastEvents, x ≠ NULL := fun x hx h => hmem (h ▸ hx)
    refine ⟨hall, ?_⟩
    simp only [IPCServer.SetEventForBroadcast, fillFirstFree_none e s.broadcastEvents _ hall]

theorem SetEventForBroadcast_other_fields (s : IPCServer) (e : Nat) :
    (s.SetEventForBroadcast e).clientComms = s.clientComms ∧
    (s.SetEventForBroadcast e).clientCommPath = s.clientCommPath ∧
    (s.SetEventForBroadcast e).clientCommPrefix = s.clientCommPrefix ∧
    (s.SetEventForBroadcast e).signalled =
      s.signalled ++ s.clientComms.take (s.clientComms.length % 2 ^ 32) :=
  ⟨rfl, rfl, rfl, rfl⟩

theorem map_clear_set (slots : List Nat) (e k : Nat) (hk : slots[k]? = some NULL)
    (he : e ∉ slots) :
    (slots.set k e).map (fun x => if e = x then NULL else x) = slots := by
  apply List.ext_getElem?
  intro i
  rw [List.getElem?_map]
  by_cases hik : i = k
  · subst hik
    have hil : i < slots.length := by
      rcases Nat.lt_or_ge i slots.length with h | h
      · exact h
      · rw [List.getElem?_eq_none h] at hk
        exact absurd hk (by simp)
    rw [List.getElem?_set_eq_of_lt _ hil, hk]
    simp
  · rw [List.getElem?_set_ne (Ne.symm hik)]
    cases hx : slots[i]? with
    | none => rfl
    | some x =>
      have hmem : x ∈ slots := List.getElem?_mem hx
      have hne : e ≠ x := fun h => he (h ▸ hmem)
      simp [hne]

theorem map_clear_not_mem (slots : List Nat) (e : Nat) (he : e ∉ slots) :
    slots.map (fun x => if e = x then NULL else x) = slots := by
  conv_rhs => rw [← List.map_id slots]
  apply List.map_congr_left
  intro x hx
  have hne : e ≠ x := fun h => he (h ▸ hx)
  simp [hne]

theorem count_set_new (slots : List Nat) (e k : Nat) (he : e ∉ slots) :
    (slots.set k e).count e ≤ 1 := by
  induction slots generalizing k with
  | nil => simp
  | cons x xs ih =>
    have hx : x ≠ e := fun h => he (h ▸ List.mem_cons_self _ _)
    have hxs : e ∉ xs := fun h => he (List.mem_cons_of_mem _ h)
    cases k with
    | zero =>
      rw [List.set_cons_zero, List.count_cons_self, List.count_eq_zero_of_not_mem hxs]
    | succ k =>
      rw [List.set_cons_succ, List.count_cons_of_ne (Ne.symm hx)]
      exact ih k hxs

theorem count_append_new (slots : List Nat) (e : Nat) (he : e ∉ slots) :
    (slots ++ [e]).count e ≤ 1 := by
  rw [List.count_append, List.count_eq_zero_of_not_mem he]
  simp

theorem DestroyEvent_clears (s : IPCServer) (e : Nat)
    (hlen : s.broadcastEvents.length < 2 ^ 32)
    (hone : e = NULL ∨ s.broadcastEvents.count e ≤ 1) :
    s.DestroyEvent e =
      some { s with broadcastEvents := s.broadcastEvents.map (fun x => if e = x then NULL else x) } := by
  have hmod : s.broadcastEvents.length % 2 ^ 32 = s.broadcastEvents.length :=
    Nat.mod_eq_of_lt hlen
  have hcase : e = NULL ∨ (false = false ∧ s.broadcastEvents.count e ≤ 1) ∨
      e ∉ s.broadcastEvents := by
    rcases hone with h | h
    · exact Or.inl h
    · exact Or.inr (Or.inl ⟨rfl, h⟩)
  have hrun := destroyLoop_map e s.broadcastEvents s.broadcastEvents.length false
    (Nat.le_refl _) hcase
  simp only [IPCServer.DestroyEvent, hmod, hrun, Option.map_some']

/-- C11 (amended): publish then remove, for a slot list that after the publish
still has fewer than `2 ^ 32` slots (fewer than `2 ^ 32` slots, and fewer than
`2 ^ 32 - 1` when none is empty). For a non-null event `e` not stored in `s`,
`DestroyEvent(e)` right after `SetEventForBroadcast(e)` returns, leaves no slot
referencing `e`, leaves every slot that held another event holding it at the
same index, gives back `s` when `s` had an empty slot, and `s` with one empty
slot appended when it had none. -/
theorem publish_then_remove (s : IPCServer) (e : Nat) (he : e ≠ NULL)
    (hnew : e ∉ s.broadcastEvents) (hlen : s.broadcastEvents.length < 2 ^ 32)
    (hroom : (∀ x ∈ s.broadcastEvents, x ≠ NULL) → s.broadcastEvents.length + 1 < 2 ^ 32) :
    ∃ r : IPCServer, (s.SetEventForBroadcast e).DestroyEvent e = some r ∧
      e ∉ r.broadcastEvents ∧
      (∀ (i x : Nat), s.broadcastEvents[i]? = some x → x ≠ NULL →
        r.broadcastEvents[i]? = some x) ∧
      (NULL ∈ s.broadcastEvents → r.broadcastEvents = s.broadcastEvents) ∧
      ((∀ x ∈ s.broadcastEvents, x ≠ NULL) →
        r.broadcastEvents = s.broadcastEvents ++ [NULL]) := by
  rcases SetEventForBroadcast_slots s e hlen with ⟨k, hk, -, hset⟩ | ⟨hall, happ⟩
  · have hlen' : (s.SetEventForBroadcast e).broadcastEvents.length < 2 ^ 32 := by
      rw [hset, List.length_set]; exact hlen
    have hcount : (s.SetEventForBroadcast e).broadcastEvents.count e ≤ 1 := by
      rw [hset]; exact count_set_new _ e k hnew
    have hd := DestroyEvent_clears (s.SetEventForBroadcast e) e hlen' (Or.inr hcount)
    rw [hset, map_clear_set _ e k hk hnew] at hd
    refine ⟨_, hd, hnew, ?_, fun _ => rfl, ?_⟩
    · intro i x hi _
      exact hi
    · intro hall
      have hkl : k < s.broadcastEvents.length := by
        rcases Nat.lt_or_ge k s.broadcastEvents.length with h | h
        · exact h
        · rw [List.getElem?_eq_none h] at hk
          exact absurd hk (by simp)
      exact absurd (List.getElem?_mem hk) (fun hm => hall NULL hm rfl)
  · have hlen' : (s.SetEventForBroadcast e).broadcastEvents.length < 2 ^ 32 := by
      rw [happ, List.length_append, List.length_singleton]; exact hroom hall
    have hcount : (s.SetEventForBroadcast e).broadcastEvents.count e ≤ 1 := by
      rw [happ]; exact count_append_new _ e hnew
    have hd := DestroyEvent_clears (s.SetEventForBroadcast e) e hlen' (Or.inr hcount)
    have hmap : (s.broadcastEvents ++ [e]).map (fun x => if e = x then NULL else x) =
        s.broadcastEvents ++ [NULL] := by
      rw [List.map_append, map_clear_not_mem _ e hnew]
      simp
    rw [happ, hmap] at hd
    refine ⟨_, hd, ?_, ?_, ?_, fun _ => rfl⟩
    · intro hmem
      rcases List.mem_append.mp hmem with h | h
      · exact hnew h
      · exact he (List.mem_singleton.mp h)
    · intro i x hi _
      have hil : i < s.broadcastEvents.length := by
        rcases Nat.lt_or_ge i s.broadcastEvents.length with h | h
        · exact h
        · rw [List.getElem?_eq_none h] at hi
          exact absurd hi (by simp)
      show (s.broadcastEvents ++ [NULL])[i]? = some x
      rw [List.getElem?_append_left hil]
      exact hi
    · intro hmem
      exact absurd rfl (hall NULL hmem)

/-- Witness of C11: publishing 7 into the slots `5, NULL, 6` and destroying it
gives back `5, NULL, 6`. -/
theorem publish_then_remove_witness :
    ∃ r : IPCServer,
      (IPCServer.SetEventForBroadcast
        { IPCServer.init [] with broadcastEvents := [5, 0, 6] } 7).DestroyEvent 7 = some r ∧
      r.broadcastEvents = [5, 0, 6] := by
  obtain ⟨r, h1, -, -, h4, -⟩ := publish_then_remove
    { IPCServer.init [] with broadcastEvents := [5, 0, 6] } 7 (by decide) (by decide)
    (by decide) (by decide)
  exact ⟨r, h1, h4 (by decide)⟩

/-- A full slot list of `M = 2 ^ 32 - 1` slots: the publish appends, after which
the loop bound of `DestroyEvent` is `2 ^ 32 % 2 ^ 32 = 0`. -/
theorem publish_then_remove_wrap (M : Nat) (hM : M + 1 = 2 ^ 32) :
    (∀ x ∈ List.replicate M 7, x ≠ NULL) ∧ 5 ∉ List.replicate M 7 ∧
    (List.replicate M 7).length = M ∧
    (IPCServer.SetEventForBroadcast
      { IPCServer.init [] with broadcastEvents := List.replicate M 7 } 5).DestroyEvent 5 =
      some { IPCServer.init [] with
        broadcastEvents := List.replicate M 7 ++ [5]
        signalled := [] } := by
  have hall : ∀ x ∈ List.replicate M 7, x ≠ NULL := by
    intro x hx
    rw [List.eq_of_mem_replicate hx]
    decide
  have hnot : 5 ∉ List.replicate M 7 := by
    intro h
    exact absurd (List.eq_of_mem_replicate h) (by decide)
  refine ⟨hall, hnot, List.length_replicate _ _, ?_⟩
  have hpub : IPCServer.SetEventForBroadcast
      { IPCServer.init [] with broadcastEvents := List.replicate M 7 } 5 =
      { IPCServer.init [] with broadcastEvents := List.replicate M 7 ++ [5], signalled := [] } := by
    simp only [IPCServer.SetEventForBroadcast, fillFirstFree_none 5 _ _ hall]
    rfl
  have hl : (List.replicate M 7 ++ [5]).length % 2 ^ 32 = 0 := by
    rw [List.length_append, List.length_replicate, List.length_singleton, hM]
    exact Nat.mod_self _
  rw [hpub]
  simp only [IPCServer.DestroyEvent, hl, destroyLoop, Option.map_some']

/-- C11 fails as stated: on a slot list of `2 ^ 32 - 1` slots all holding the
event 7, publishing the new event 5 appends it as slot `2 ^ 32 - 1`; the
`unsigned int` loop bound of `DestroyEvent` is then 0, no slot is visited, and
5 is still stored in the last slot after `DestroyEvent(5)`. -/
theorem publish_then_remove_keeps_event :
    (∀ x ∈ List.replicate (2 ^ 32 - 1) 7, x ≠ NULL) ∧ 5 ∉ List.replicate (2 ^ 32 - 1) 7 ∧
    (List.replicate (2 ^ 32 - 1) 7).length = 2 ^ 32 - 1 ∧
    (IPCServer.SetEventForBroadcast
      { IPCServer.init [] with
        broadcastEvents := List.replicate (2 ^ 32 - 1) 7 } 5).DestroyEvent 5 =
      some { IPCServer.init [] with
        broadcastEvents := List.replicate (2 ^ 32 - 1) 7 ++ [5]
        signalled := [] } :=
  publish_then_remove_wrap (2 ^ 32 - 1) rfl


/-! ## Traces of the broadcast operations -/

theorem fillTrace_no_signal (e : Nat) (slots : List Nat) :
    ∀ (s i : Nat), ∀ a ∈ (fillTrace e s i slots).1, a.isSignal = false := by
  induction slots with
  | nil => intro s i a ha; cases s <;> simp [fillTrace] at ha
  | cons x xs ih =>
    intro s i a ha
    cases s with
    | zero => simp [fillTrace] at ha
    | succ s =>
      unfold fillTrace at ha
      split at ha
      · simp only [List.mem_cons, List.mem_singleton, List.not_mem_nil, or_false] at ha
        rcases ha with h | h <;> subst h <;> rfl
      · rcases List.mem_cons.mp ha with h | h
        · subst h; rfl
        · exact ih s (i + 1) a h

/-- Running the scan steps stores what `fillFirstFree` computes. -/
theorem fillTrace_steps (e : Nat) (slots : List Nat) :
    ∀ (s : Nat) (front : List Nat) (srv : IPCServer),
      srv.broadcastEvents = front ++ slots →
      ((fillTrace e s front.length slots).1.foldl IPCServer.step srv =
        { srv with broadcastEvents :=
            front ++ ((fillFirstFree e s slots).getD slots) }) ∧
      (fillTrace e s front.length slots).2 = (fillFirstFree e s slots).isSome := by
  induction slots with
  | nil =>
    intro s front srv h
    cases s <;> simp [fillTrace, fillFirstFree, ← h]
  | cons x xs ih =>
    intro s front srv h
    cases s with
    | zero => simp [fillTrace, fillFirstFree, ← h]
    | succ s =>
      by_cases hx : x = NULL
      · simp only [fillTrace, fillFirstFree, hx, if_true, List.foldl_cons, List.foldl_nil,
          IPCServer.step, Option.getD_some, Option.isSome_some, and_true]
        rw [h]
        congr 1
        simp
      · have hrec := ih s (front ++ [x]) srv (by rw [h]; simp)
        simp only [List.length_append, List.length_singleton] at hrec
        simp only [fillTrace, fillFirstFree, hx, if_false, List.foldl_cons, IPCServer.step]
        refine ⟨?_, ?_⟩
        · rw [hrec.1]
          cases fillFirstFree e s xs <;> simp
        · rw [hrec.2]
          cases fillFirstFree e s xs <;> simp

theorem signal_steps (n : Nat) : ∀ (srv : IPCServer), n ≤ srv.clientComms.length →
    ((List.range n).map Access.signalSend).foldl IPCServer.step srv =
      { srv with signalled := srv.signalled ++ srv.clientComms.take n } := by
  induction n with
  | zero => intro srv _; simp
  | succ n ih =>
    intro srv hn
    rw [List.range_succ, List.map_append, List.foldl_append, ih srv (by omega)]
    simp only [List.map_cons, List.map_nil, List.foldl_cons, List.foldl_nil, IPCServer.step]
    have hlt : n < srv.clientComms.length := by omega
    rw [List.getElem?_eq_getElem hlt]
    simp only [Option.toList_some, List.append_assoc]
    rw [List.take_succ, List.getElem?_eq_getElem hlt]
    simp

theorem publishSteps_run (s : IPCServer) (e : Nat) :
    (s.publishSteps e).foldl IPCServer.step s =
      { s with broadcastEvents := (s.SetEventForBroadcast e).broadcastEvents } := by
  obtain ⟨h1, h2⟩ := fillTrace_steps e s.broadcastEvents (s.broadcastEvents.length % 2 ^ 32)
    [] s rfl
  simp only [List.length_nil, List.nil_append] at h1 h2
  unfold IPCServer.publishSteps IPCServer.SetEventForBroadcast
  simp only [List.foldl_append, List.foldl_cons, List.foldl_nil, IPCServer.step, h1, h2]
  cases hf : fillFirstFree e (s.broadcastEvents.length % 2 ^ 32) s.broadcastEvents with
  | none => rfl
  | some r => rfl

theorem SetEventForBroadcastTrace_run (s : IPCServer) (e : Nat) :
    (s.SetEventForBroadcastTrace e).foldl IPCServer.step s = s.SetEventForBroadcast e := by
  unfold IPCServer.SetEventForBroadcastTrace
  rw [List.foldl_append, publishSteps_run, signal_steps _ _ (Nat.mod_le _ _)]
  rfl

theorem publishSteps_no_signal (s : IPCServer) (e : Nat) :
    ∀ a ∈ s.publishSteps e, a.isSignal = false := by
  intro a ha
  unfold IPCServer.publishSteps at ha
  simp only [List.mem_append, List.mem_cons, List.mem_singleton, List.not_mem_nil,
    or_false] at ha
  rcases ha with ((h | h) | h) | h
  · rcases h with h | h <;> subst h <;> rfl
  · exact fillTrace_no_signal e _ _ _ a h
  · split at h
    · simp at h
    · simp only [List.mem_singleton] at h
      subst h; rfl
  · rcases h with h | h <;> subst h <;> rfl

/-- C12 (amended): for a registry of `n < 2 ^ 32` channels, one call of
`SetEventForBroadcast` performs, in program order, the steps that update the
slot list, none of which is a `SignalSend`, and then `SignalSend` on the channels
`0, 1, ..., n - 1`, once each and in index order. After the first part the slot
list is already the final one (slot reused or event appended) and nobody has
been signalled. Running all steps gives the state computed by
`SetEventForBroadcast`; the channels signalled are exactly the registry, in
order, and the registry itself is unchanged. -/
theorem SetEventForBroadcast_signals_every_channel (s : IPCServer) (e : Nat)
    (hn : s.clientComms.length < 2 ^ 32) :
    s.SetEventForBroadcastTrace e =
      s.publishSteps e ++ (List.range s.clientComms.length).map Access.signalSend ∧
    (∀ a ∈ s.publishSteps e, a.isSignal = false) ∧
    ((s.publishSteps e).foldl IPCServer.step s).broadcastEvents =
      (s.SetEventForBroadcast e).broadcastEvents ∧
    ((s.publishSteps e).foldl IPCServer.step s).signalled = s.signalled ∧
    (s.SetEventForBroadcastTrace e).foldl IPCServer.step s = s.SetEventForBroadcast e ∧
    (s.SetEventForBroadcast e).signalled = s.signalled ++ s.clientComms ∧
    (s.SetEventForBroadcast e).clientComms = s.clientComms := by
  have hmod : s.clientComms.length % 2 ^ 32 = s.clientComms.length := Nat.mod_eq_of_lt hn
  refine ⟨?_, publishSteps_no_signal s e, ?_, ?_, SetEventForBroadcastTrace_run s e, ?_, rfl⟩
  · unfold IPCServer.SetEventForBroadcastTrace
    rw [hmod]
  · rw [publishSteps_run]
  · rw [publishSteps_run]
  · have h := (SetEventForBroadcast_other_fields s e).2.2.2
    rw [hmod, List.take_length] at h
    exact h

/-- Witness of C12: with the channels 0 and 1 registered, publishing event 7
signals channel 0, then channel 1. -/
theorem SetEventForBroadcast_signals_every_channel_witness :
    (IPCServer.SetEventForBroadcast
      { IPCServer.init [] with
        clientComms := [⟨0, bytes "/tmp/", bytes "rabbithole-"⟩,
          ⟨1, bytes "/tmp/", bytes "rabbithole-"⟩] } 7).signalled =
      [⟨0, bytes "/tmp/", bytes "rabbithole-"⟩, ⟨1, bytes "/tmp/", bytes "rabbithole-"⟩] :=
  (SetEventForBroadcast_signals_every_channel
    { IPCServer.init [] with
      clientComms := [⟨0, bytes "/tmp/", bytes "rabbithole-"⟩,
        ⟨1, bytes "/tmp/", bytes "rabbithole-"⟩] } 7 (by decide)).2.2.2.2.2.1

/-- A registry of `M = 2 ^ 32` channels: the bound of the signalling loop is
`M % 2 ^ 32 = 0`. -/
theorem SetEventForBroadcast_signals_wrap (M : Nat) (hM : M = 2 ^ 32) (c : IPCComm) :
    (List.replicate M c).length = M ∧
    (IPCServer.SetEventForBroadcast
      { IPCServer.init [] with clientComms := List.replicate M c } 7).signalled = [] ∧
    ∀ a ∈ IPCServer.SetEventForBroadcastTrace
      { IPCServer.init [] with clientComms := List.replicate M c } 7, a.isSignal = false := by
  have h0 : (List.replicate M c).length % 2 ^ 32 = 0 := by
    rw [List.length_replicate, hM]; exact Nat.mod_self _
  refine ⟨List.length_replicate _ _, ?_, ?_⟩
  · have h := (SetEventForBroadcast_other_fields
      { IPCServer.init [] with clientComms := List.replicate M c } 7).2.2.2
    rw [h]
    simp only [h0, List.take_zero, List.append_nil]
    rfl
  · intro a ha
    unfold IPCServer.SetEventForBroadcastTrace at ha
    simp only [h0, List.range_zero, List.map_nil, List.append_nil] at ha
    exact publishSteps_no_signal _ _ a ha

/-- C12 fails as stated: with `2 ^ 32` channels registered the `unsigned int`
bound of the signalling loop is 0, so `SetEventForBroadcast` signals no channel
at all: the log of signalled channels is empty and no step of the call is a
`SignalSend`. -/
theorem SetEventForBroadcast_signals_nobody :
    (List.replicate (2 ^ 32) (IPCComm.mk 0 [] [])).length = 2 ^ 32 ∧
    (IPCServer.SetEventForBroadcast
      { IPCServer.init [] with
        clientComms := List.replicate (2 ^ 32) (IPCComm.mk 0 [] []) } 7).signalled = [] ∧
    ∀ a ∈ IPCServer.SetEventForBroadcastTrace
      { IPCServer.init [] with
        clientComms := List.replicate (2 ^ 32) (IPCComm.mk 0 [] []) } 7, a.isSignal = false :=
  SetEventForBroadcast_signals_wrap (2 ^ 32) rfl (IPCComm.mk 0 [] [])

/-- Running the steps of the `DestroyEvent` loop stores what `destroyLoop`
computes, whenever the latter is defined. -/
theorem destroyTrace_steps (e : Nat) (slots : List Nat) :
    ∀ (s : Nat) (released : Bool) (front res : List Nat) (srv : IPCServer),
      srv.broadcastEvents = front ++ slots →
      destroyLoop e s released slots = some res →
      (destroyTrace e s front.length slots).foldl IPCServer.step srv =
        { srv with broadcastEvents := front ++ res } := by
  induction slots with
  | nil =>
    intro s released front res srv h hres
    cases s <;>
      (simp only [destroyLoop, Option.some.injEq] at hres
       subst hres
       simp [destroyTrace, ← h])
  | cons x xs ih =>
    intro s released front res srv h hres
    cases s with
    | zero =>
      simp only [destroyLoop, Option.some.injEq] at hres
      subst hres
      simp [destroyTrace, ← h]
    | succ s =>
      by_cases hex : e = x
      · subst hex
        simp only [destroyLoop, if_true] at hres
        split at hres
        · exact absurd hres (by simp)
        · cases hrec : destroyLoop e s true xs with
          | none => rw [hrec] at hres; exact absurd hres (by simp)
          | some r =>
            rw [hrec] at hres
            simp only [Option.map_some', Option.some.injEq] at hres
            subst hres
            have hstep := ih s true (front ++ [NULL]) r
              { srv with broadcastEvents := srv.broadcastEvents.set front.length NULL }
              (by simp [h]) hrec
            simp only [List.length_append, List.length_singleton] at hstep
            simp only [destroyTrace, if_true, List.foldl_cons, IPCServer.step, hstep]
            simp
      · simp only [destroyLoop, hex, if_false] at hres
        cases hrec : destroyLoop e s released xs with
        | none => rw [hrec] at hres; exact absurd hres (by simp)
        | some r =>
          rw [hrec] at hres
          simp only [Option.map_some', Option.some.injEq] at hres
          subst hres
          have hstep := ih s released (front ++ [x]) r srv (by simp [h]) hrec
          simp only [List.length_append, List.length_singleton] at hstep
          simp only [destroyTrace, hex, if_false, List.foldl_cons, IPCServer.step, hstep]
          simp

theorem DestroyEventTrace_run (s r : IPCServer) (e : Nat) (h : s.DestroyEvent e = some r) :
    (s.DestroyEventTrace e).foldl IPCServer.step s = r := by
  unfold IPCServer.DestroyEvent at h
  cases hrec : destroyLoop e (s.broadcastEvents.length % 2 ^ 32) false s.broadcastEvents with
  | none => rw [hrec] at h; exact absurd h (by simp)
  | some res =>
    rw [hrec] at h
    simp only [Option.map_some', Option.some.injEq] at h
    have hstep := destroyTrace_steps e s.broadcastEvents _ false [] res s rfl hrec
    simp only [List.length_nil, List.nil_append] at hstep
    unfold IPCServer.DestroyEventTrace
    simp only [List.foldl_cons, IPCServer.step, hstep]
    exact h

/-! ## Lock discipline -/

theorem lockedFrom_true_append (l1 l2 : List Access)
    (h : ∀ a ∈ l1, a ≠ Access.lock ∧ a ≠ Access.unlock) :
    lockedFrom true (l1 ++ l2) = lockedFrom true l2 := by
  induction l1 with
  | nil => rfl
  | cons a t ih =>
    have ha := h a (List.mem_cons_self _ _)
    have ht := ih (fun b hb => h b (List.mem_cons_of_mem _ hb))
    cases a <;> simp_all [lockedFrom]

theorem lockedFrom_signals (held : Bool) (l : List Access)
    (h : ∀ a ∈ l, ∃ i, a = Access.signalSend i) : lockedFrom held l = true := by
  induction l with
  | nil => cases held <;> rfl
  | cons a t ih =>
    obtain ⟨i, rfl⟩ := h a (List.mem_cons_self _ _)
    have ht := ih (fun b hb => h b (List.mem_cons_of_mem _ hb))
    cases held <;> simp_all [lockedFrom, Access.touchesSlots]

theorem fillTrace_no_lock (e : Nat) (slots : List Nat) :
    ∀ (s i : Nat), ∀ a ∈ (fillTrace e s i slots).1, a ≠ Access.lock ∧ a ≠ Access.unlock := by
  induction slots with
  | nil => intro s i a ha; cases s <;> simp [fillTrace] at ha
  | cons x xs ih =>
    intro s i a ha
    cases s with
    | zero => simp [fillTrace] at ha
    | succ s =>
      unfold fillTrace at ha
      split at ha
      · simp only [List.mem_cons, List.mem_singleton, List.not_mem_nil, or_false] at ha
        rcases ha with h | h <;> subst h <;> exact ⟨by simp, by simp⟩
      · rcases List.mem_cons.mp ha with h | h
        · subst h; exact ⟨by simp, by simp⟩
        · exact ih s (i + 1) a h

theorem destroyTrace_no_lock (e : Nat) (slots : List Nat) :
    ∀ (s i : Nat), Access.lock ∉ destroyTrace e s i slots := by
  induction slots with
  | nil => intro s i; cases s <;> simp [destroyTrace]
  | cons x xs ih =>
    intro s i
    cases s with
    | zero => simp [destroyTrace]
    | succ s =>
      unfold destroyTrace
      split
      · simp only [List.mem_cons, not_or]
        exact ⟨by simp, by simp, by simp, ih s (i + 1)⟩
      · simp only [List.mem_cons, not_or]
        exact ⟨by simp, ih s (i + 1)⟩

/-- C16 fails on the code: `DestroyEvent` never takes `bcastEventStackLock`.
In the program order of `SetEventForBroadcast` every access to the slot list
lies between `lock` and `unlock`. The steps of `DestroyEvent` contain no `lock`
at all, and its first access to the slot list, the read of `size()`, is made
with the lock not held. This holds for every state and every event. -/
theorem DestroyEvent_takes_no_lock (s : IPCServer) (e : Nat) :
    lockedFrom false (s.SetEventForBroadcastTrace e) = true ∧
    Access.lock ∉ s.DestroyEventTrace e ∧
    lockedFrom false (s.DestroyEventTrace e) = false := by
  refine ⟨?_, ?_, ?_⟩
  · unfold IPCServer.SetEventForBroadcastTrace IPCServer.publishSteps
    have hmid : ∀ a ∈ (fillTrace e (s.broadcastEvents.length % 2 ^ 32) 0 s.broadcastEvents).1 ++
        (if (fillTrace e (s.broadcastEvents.length % 2 ^ 32) 0 s.broadcastEvents).2
          then [] else [Access.slotPush e]), a ≠ Access.lock ∧ a ≠ Access.unlock := by
      intro a ha
      rcases List.mem_append.mp ha with h | h
      · exact fillTrace_no_lock e _ _ _ a h
      · split at h
        · simp at h
        · simp only [List.mem_singleton] at h
          subst h; exact ⟨by simp, by simp⟩
    have hform : [Access.lock, Access.slotsSize] ++
        (fillTrace e (s.broadcastEvents.length % 2 ^ 32) 0 s.broadcastEvents).1 ++
        (if (fillTrace e (s.broadcastEvents.length % 2 ^ 32) 0 s.broadcastEvents).2
          then [] else [Access.slotPush e]) ++
        [Access.unlock, Access.commsSize] ++
        (List.range (s.clientComms.length % 2 ^ 32)).map Access.signalSend =
        Access.lock :: Access.slotsSize ::
          (((fillTrace e (s.broadcastEvents.length % 2 ^ 32) 0 s.broadcastEvents).1 ++
            (if (fillTrace e (s.broadcastEvents.length % 2 ^ 32) 0 s.broadcastEvents).2
              then [] else [Access.slotPush e])) ++
            (Access.unlock :: Access.commsSize ::
              (List.range (s.clientComms.length % 2 ^ 32)).map Access.signalSend)) := by
      simp only [List.append_assoc, List.cons_append, List.nil_append]
    have h1 : ∀ t, lockedFrom false (Access.lock :: t) = lockedFrom true t := fun _ => rfl
    have h2 : ∀ t, lockedFrom true (Access.slotsSize :: t) = lockedFrom true t := by
      intro t; simp [lockedFrom, Access.touchesSlots]
    have h3 : ∀ t, lockedFrom true (Access.unlock :: t) = lockedFrom false t := fun _ => rfl
    have h4 : ∀ t, lockedFrom false (Access.commsSize :: t) = lockedFrom false t := by
      intro t; simp [lockedFrom, Access.touchesSlots]
    rw [hform, h1, h2, lockedFrom_true_append _ _ hmid, h3, h4]
    exact lockedFrom_signals false _ (by
      intro a ha
      obtain ⟨i, -, hi⟩ := List.mem_map.mp ha
      exact ⟨i, hi.symm⟩)
  · unfold IPCServer.DestroyEventTrace
    simp only [List.mem_cons, not_or]
    exact ⟨by simp, destroyTrace_no_lock e _ _ _⟩
  · unfold IPCServer.DestroyEventTrace
    simp [lockedFrom, Access.touchesSlots]



/-! ## Short, failed and closed reads -/

/-- C13 fails on the code: `RecvChunk` drops the value `recv` returns and
advances `curPos` by the amount asked for. The connection delivers the bytes
`1, 2, 3, 4`; the only read, asking for 4 bytes, returns 1 byte. The buffer
returned is `1, x, x, x, 0` with `x = 170` the content of the fresh allocation,
not `1, 2, 3, 4, 0`, and the bytes `2, 3, 4` are still unread on the
connection. -/
theorem RecvChunk_short_read_leaves_gap :
    RecvChunk (fun _ => 170) ⟨[1, 2, 3, 4], [RecvOutcome.upTo 1], []⟩ 4 =
      some (⟨[2, 3, 4], [], []⟩, [1, 170, 170, 170, 0]) := by
  decide

/-- C14 fails on the code: `RecvChunk` has no failure path. (a) After a header
announcing 7 payload bytes the peer closes, so the payload read returns 0;
`RecvChunk` still returns a buffer, here the content `VERSION` of the fresh
allocation, and the handler answers with the version frame and stays in
`Receiving`. (b) The same with a payload read that returns -1 and stale content
`RABBITHOLE`: a channel is created and its path is sent. (c) With zeroed fresh
memory nothing is sent, but the connection still stays in `Receiving` instead of
moving to `Closed`. -/
theorem RecvChunk_ignores_closed_connection :
    (recv ⟨[], [], []⟩ 7).1 = 0 ∧
    RecvChunk (fun i => (bytes "VERSION").getD i 0) ⟨[], [], []⟩ 7 =
      some (⟨[], [], []⟩, cstr "VERSION") ∧
    handlerStep ⟨3, bytes "0.1"⟩ (fun i => (bytes "VERSION").getD i 0)
        ⟨IPCServer.init [], ⟨htonl 3 ++ htonl 7, [], []⟩, List.replicate 8 0⟩ =
      (Phase.Receiving,
        ⟨IPCServer.init [], ⟨[], [], [htonl 3 ++ bytes "0.1"]⟩, htonl 3 ++ htonl 7⟩) ∧
    (recv ⟨[], [RecvOutcome.error], []⟩ 7).1 = -1 ∧
    handlerStep ⟨3, bytes "0.1"⟩ (fun i => (bytes "RABBITHOLE").getD i 0)
        ⟨IPCServer.init [],
          ⟨htonl 3 ++ htonl 10, [RecvOutcome.upTo 8, RecvOutcome.error], []⟩,
          List.replicate 8 0⟩ =
      (Phase.Receiving,
        ⟨(IPCServer.init []).CreateNewComm.2,
          ⟨[], [], [htonl 17 ++ bytes "/tmp/rabbithole-0"]⟩, htonl 3 ++ htonl 10⟩) ∧
    handlerStep ⟨3, bytes "0.1"⟩ (fun _ => 0)
        ⟨IPCServer.init [], ⟨htonl 3 ++ htonl 7, [], []⟩, List.replicate 8 0⟩ =
      (Phase.Receiving, ⟨IPCServer.init [], ⟨[], [], []⟩, htonl 3 ++ htonl 7⟩) := by
  refine ⟨by decide, by decide, by decide, by decide, by decide, by decide⟩

/-- A header read that returns an error or zero bytes (`rxStatus <= 0`) moves
the connection to `Closed`. Nothing is sent, the server
state and the header buffer are unchanged, and the outcome does not depend on
`IPC_VER`, `WONDERLAND_VER` or memory content, so no version or length is
decoded and no command is dispatched. A scheduled error gives `-1`, and a
connection with nothing pending gives a value `≤ 0`. -/
theorem header_read_failure_closes (g : Globals) (fresh : Nat → Nat) (c : Session)
    (h : (recv c.socket 8).1 ≤ 0) :
    handlerStep g fresh c = (Phase.Closed, { c with socket := (recv c.socket 8).2.2 }) ∧
    (recv c.socket 8).2.2.sent = c.socket.sent ∧
    (∀ (g' : Globals) (fresh' : Nat → Nat), handlerStep g' fresh' c = handlerStep g fresh c) ∧
    (∀ socket : Socket, socket.sched.head? = some RecvOutcome.error →
      (recv socket 8).1 = -1) ∧
    (∀ socket : Socket, socket.pending = [] → (recv socket 8).1 ≤ 0) := by
  have hstep : ∀ (g' : Globals) (fresh' : Nat → Nat),
      handlerStep g' fresh' c = (Phase.Closed, { c with socket := (recv c.socket 8).2.2 }) := by
    intro g' fresh'
    unfold handlerStep
    simp only [h, if_true]
  refine ⟨hstep g fresh, ?_, fun g' fresh' => (hstep g' fresh').trans (hstep g fresh).symm,
    ?_, ?_⟩
  · obtain ⟨pending, sched, sent⟩ := c.socket
    cases sched with
    | nil => rfl
    | cons o rest => cases o <;> rfl
  · intro socket hs
    obtain ⟨pending, sched, sent⟩ := socket
    cases sched with
    | nil => simp at hs
    | cons o rest =>
      simp only [List.head?_cons, Option.some.injEq] at hs
      subst hs
      rfl
  · intro socket hp
    obtain ⟨pending, sched, sent⟩ := socket
    simp only at hp
    subst hp
    cases sched with
    | nil => simp [recv]
    | cons o rest => cases o <;> simp [recv]

/-- Example: the peer has closed, the header read returns 0, and the handler
moves to `Closed` with nothing sent. -/
theorem header_read_failure_closes_witness :
    handlerStep ⟨3, bytes "0.1"⟩ (fun _ => 0)
        ⟨IPCServer.init [], ⟨[], [], []⟩, List.replicate 8 0⟩ =
      (Phase.Closed, ⟨IPCServer.init [], ⟨[], [], []⟩, List.replicate 8 0⟩) :=
  (header_read_failure_closes ⟨3, bytes "0.1"⟩ (fun _ => 0)
    ⟨IPCServer.init [], ⟨[], [], []⟩, List.replicate 8 0⟩ (by decide)).1

/-- C15 fails on the code: a header read that returns 4 bytes passes the test
`rxStatus <= 0`, the only test made on it. The 4 bytes received are the version 3; bytes
4 to 7 of `rxRaw` still hold the length 7 of the previous frame. The handler
decodes version 3 and length 7, reads `VERSION` as payload, sends the version
frame and stays in `Receiving`. -/
theorem short_header_read_is_processed :
    (recv ⟨htonl 3 ++ bytes "VERSION", [RecvOutcome.upTo 4], []⟩ 8).1 = 4 ∧
    handlerStep ⟨3, bytes "0.1"⟩ (fun _ => 0)
        ⟨IPCServer.init [], ⟨htonl 3 ++ bytes "VERSION", [RecvOutcome.upTo 4], []⟩,
          htonl 3 ++ htonl 7⟩ =
      (Phase.Receiving,
        ⟨IPCServer.init [], ⟨[], [], [htonl 3 ++ bytes "0.1"]⟩, htonl 3 ++ htonl 7⟩) := by
  refine ⟨by decide, by decide⟩

/-! ## Allocation size of `RecvChunk` -/

/-- Below the largest 32-bit value the allocation is larger than `chunkSize`. -/
theorem allocSize_gt (chunkSize : Nat) (h : chunkSize + 1 < 2 ^ 32) :
    chunkSize < allocSize chunkSize := by
  unfold allocSize
  rw [Nat.mod_eq_of_lt h]
  exact Nat.lt_succ_self _

/-- C18 fails on the code: for the 32-bit length `chunkSize = 2 ^ 32 - 1` the
size `chunkSize + 1` computed in 32-bit unsigned arithmetic is 0, which is not
greater than `chunkSize`; the terminator index `chunkSize` is outside the
allocation and `RecvChunk` has no defined result. -/
theorem allocSize_wraps_at_max :
    (2 ^ 32 - 1 : Nat) < 2 ^ 32 ∧
    allocSize (2 ^ 32 - 1) = 0 ∧
    ¬ (2 ^ 32 - 1 < allocSize (2 ^ 32 - 1)) ∧
    RecvChunk (fun _ => 0) ⟨[], [], []⟩ (2 ^ 32 - 1) = none := by
  refine ⟨by decide, by decide, by decide, ?_⟩
  unfold RecvChunk
  rw [if_pos (by decide)]

/-! ## The read loop of `RecvChunk` -/

theorem recvLoop_requests (chunkSize : Nat) (fuel : Nat) :
    ∀ (socket : Socket) (payload : List Nat) (curPos bufferSize : Nat),
      ((recvLoop chunkSize fuel socket payload curPos bufferSize).1,
        (recvLoop chunkSize fuel socket payload curPos bufferSize).2.1) =
        (recvRequests chunkSize fuel curPos bufferSize).foldl recvInto (socket, payload) := by
  induction fuel with
  | zero => intro socket payload curPos bufferSize; rfl
  | succ f ih =>
    intro socket payload curPos bufferSize
    unfold recvLoop recvRequests
    by_cases hpos : curPos < chunkSize
    · simp only [hpos, if_true, List.foldl_cons]
      rw [ih]
      rfl
    · simp only [hpos, if_false, List.foldl_nil]

theorem recvRequests_done (chunkSize fuel curPos bufferSize : Nat) (h : chunkSize ≤ curPos) :
    recvRequests chunkSize fuel curPos bufferSize = [] := by
  cases fuel with
  | zero => rfl
  | succ f =>
    unfold recvRequests
    rw [if_neg (by omega)]

theorem recvLoop_done (chunkSize fuel : Nat) (socket : Socket) (payload : List Nat)
    (curPos bufferSize : Nat) (h : chunkSize ≤ curPos) :
    recvLoop chunkSize fuel socket payload curPos bufferSize = (socket, payload, curPos) := by
  cases fuel with
  | zero => rfl
  | succ f =>
    unfold recvLoop
    rw [if_neg (by omega)]

/-- The requests from a state with `bufferSize = 8`: full reads of 8 bytes, then
one read of what is left. -/
theorem recvRequests_eq (chunkSize : Nat) (hc : chunkSize < 2 ^ 32) (fuel : Nat) :
    ∀ curPos, curPos ≤ chunkSize → chunkSize - curPos ≤ fuel →
      recvRequests chunkSize fuel curPos 8 =
        (List.range ((chunkSize - curPos + 7) / 8)).map
          (fun k => (curPos + 8 * k, min 8 (chunkSize - (curPos + 8 * k)))) := by
  induction fuel with
  | zero =>
    intro curPos h1 h2
    have : (chunkSize - curPos + 7) / 8 = 0 := by omega
    rw [this]
    rfl
  | succ f ih =>
    intro curPos h1 h2
    by_cases hpos : curPos < chunkSize
    · unfold recvRequests
      simp only [hpos, if_true]
      by_cases h8 : chunkSize - curPos < 8
      · have hb : (if chunkSize - curPos < 8 then chunkSize - curPos else 8) =
            chunkSize - curPos := if_pos h8
        have hb2 : (if chunkSize < chunkSize - curPos then chunkSize else chunkSize - curPos) =
            chunkSize - curPos := if_neg (by omega)
        have hnext : (curPos + (chunkSize - curPos)) % 2 ^ 32 = chunkSize := by
          rw [Nat.mod_eq_of_lt (by omega)]; omega
        have hcnt : (chunkSize - curPos + 7) / 8 = 1 := by omega
        simp only [hb, hb2, hnext, hcnt, recvRequests_done chunkSize f chunkSize _ (Nat.le_refl _)]
        rw [show List.range 1 = [0] from rfl]
        simp only [List.map_cons, List.map_nil, Nat.mul_zero, Nat.add_zero]
        congr 2
        omega
      · have hb : (if chunkSize - curPos < 8 then chunkSize - curPos else 8) = 8 := if_neg h8
        have hb2 : (if chunkSize < 8 then chunkSize else 8) = 8 := if_neg (by omega)
        have hnext : (curPos + 8) % 2 ^ 32 = curPos + 8 := Nat.mod_eq_of_lt (by omega)
        have hcnt : (chunkSize - curPos + 7) / 8 = (chunkSize - (curPos + 8) + 7) / 8 + 1 := by
          omega
        simp only [hb, hb2, hnext, hcnt]
        rw [ih (curPos + 8) (by omega) (by omega), List.range_succ_eq_map, List.map_cons,
          List.map_map]
        congr 1
        · simp only [Nat.mul_zero, Nat.add_zero]
          congr 1
          omega
        · apply List.map_congr_left
          intro k _
          simp only [Function.comp, Nat.succ_eq_add_one]
          have : curPos + 8 + 8 * k = curPos + 8 * (k + 1) := by omega
          rw [this]
    · have hz : (chunkSize - curPos + 7) / 8 = 0 := by omega
      rw [hz, recvRequests_done chunkSize _ curPos 8 (by omega)]
      rfl

theorem recvLoop_exit (chunkSize : Nat) (hc : chunkSize < 2 ^ 32) (fuel : Nat) :
    ∀ (socket : Socket) (payload : List Nat) (curPos bufferSize : Nat),
      curPos ≤ chunkSize → chunkSize - curPos ≤ fuel → 1 ≤ bufferSize →
      (recvLoop chunkSize fuel socket payload curPos bufferSize).2.2 = chunkSize := by
  induction fuel with
  | zero =>
    intro socket payload curPos bufferSize h1 h2 _
    show curPos = chunkSize
    omega
  | succ f ih =>
    intro socket payload curPos bufferSize h1 h2 hb
    by_cases hpos : curPos < chunkSize
    · unfold recvLoop
      simp only [hpos, if_true]
      have hbs : ∃ bs, bs = (if chunkSize < (if chunkSize - curPos < bufferSize
          then chunkSize - curPos else bufferSize) then chunkSize
          else (if chunkSize - curPos < bufferSize then chunkSize - curPos else bufferSize)) ∧
          1 ≤ bs ∧ curPos + bs ≤ chunkSize := by
        refine ⟨_, rfl, ?_, ?_⟩ <;> split <;> split <;> omega
      obtain ⟨bs, hdef, hbs1, hbs2⟩ := hbs
      rw [← hdef]
      have hnext : (curPos + bs) % 2 ^ 32 = curPos + bs := Nat.mod_eq_of_lt (by omega)
      rw [hnext]
      exact ih _ _ _ _ hbs2 (by omega) hbs1
    · rw [recvLoop_done chunkSize _ socket payload curPos bufferSize (by omega)]
      show curPos = chunkSize
      omega

theorem recvLoop_more_fuel (chunkSize : Nat) (hc : chunkSize < 2 ^ 32) (fuel : Nat) :
    ∀ (extra : Nat) (socket : Socket) (payload : List Nat) (curPos bufferSize : Nat),
      curPos ≤ chunkSize → chunkSize - curPos ≤ fuel → 1 ≤ bufferSize →
      recvLoop chunkSize (fuel + extra) socket payload curPos bufferSize =
        recvLoop chunkSize fuel socket payload curPos bufferSize := by
  induction fuel with
  | zero =>
    intro extra socket payload curPos bufferSize h1 h2 _
    rw [recvLoop_done chunkSize _ socket payload curPos bufferSize (by omega),
      recvLoop_done chunkSize _ socket payload curPos bufferSize (by omega)]
  | succ f ih =>
    intro extra socket payload curPos bufferSize h1 h2 hb
    by_cases hpos : curPos < chunkSize
    · have hfe : f + 1 + extra = (f + extra) + 1 := by omega
      rw [hfe]
      unfold recvLoop
      simp only [hpos, if_true]
      have hbs : ∃ bs, bs = (if chunkSize < (if chunkSize - curPos < bufferSize
          then chunkSize - curPos else bufferSize) then chunkSize
          else (if chunkSize - curPos < bufferSize then chunkSize - curPos else bufferSize)) ∧
          1 ≤ bs ∧ curPos + bs ≤ chunkSize := by
        refine ⟨_, rfl, ?_, ?_⟩ <;> split <;> split <;> omega
      obtain ⟨bs, hdef, hbs1, hbs2⟩ := hbs
      rw [← hdef]
      have hnext : (curPos + bs) % 2 ^ 32 = curPos + bs := Nat.mod_eq_of_lt (by omega)
      rw [hnext]
      exact ih extra _ _ _ _ hbs2 (by omega) hbs1
    · rw [recvLoop_done chunkSize _ socket payload curPos bufferSize (by omega),
        recvLoop_done chunkSize _ socket payload curPos bufferSize (by omega)]

theorem sum_map_const_eight (k : Nat) : ((List.range k).map (fun _ => 8)).sum = 8 * k := by
  induction k with
  | zero => rfl
  | succ k ih =>
    rw [List.range_succ, List.map_append, List.sum_append, ih]
    simp
    omega

theorem take_range_map (m k : Nat) (f : Nat → Nat × Nat) (h : k ≤ m) :
    ((List.range m).map f).take k = (List.range k).map f := by
  rw [← List.map_take, List.take_range, Nat.min_eq_left h]

/-- C17: the read loop of `RecvChunk`, for every 32-bit `chunkSize`. The loop
has exited after at most `chunkSize` iterations (more fuel changes nothing) and
exits with `curPos = chunkSize`. Its reads are the requests of `recvRequests`
performed in order: there are `ceil(chunkSize / 8)` of them; the `k`-th writes
at offset `8 * k` and asks for `min 8 (chunkSize - 8 * k)` bytes; every request
asks for between 1 and 8 bytes, at an offset that is at most `chunkSize`, and
offset plus size is at most `chunkSize`, below `2 ^ 32`; all requests but the
last ask for 8 bytes; each offset is the sum of the earlier request sizes; the
sizes add up to `chunkSize`; and there is no read when `chunkSize = 0`. -/
theorem RecvChunk_loop_requests (chunkSize : Nat) (hc : chunkSize < 2 ^ 32) (extra : Nat)
    (socket : Socket) (payload : List Nat) :
    recvLoop chunkSize (chunkSize + extra) socket payload 0 8 =
      recvLoop chunkSize chunkSize socket payload 0 8 ∧
    (recvLoop chunkSize chunkSize socket payload 0 8).2.2 = chunkSize ∧
    ((recvLoop chunkSize chunkSize socket payload 0 8).1,
      (recvLoop chunkSize chunkSize socket payload 0 8).2.1) =
      (recvRequests chunkSize chunkSize 0 8).foldl recvInto (socket, payload) ∧
    (recvRequests chunkSize chunkSize 0 8).length = (chunkSize + 7) / 8 ∧
    (∀ k, k < (chunkSize + 7) / 8 →
      (recvRequests chunkSize chunkSize 0 8)[k]? = some (8 * k, min 8 (chunkSize - 8 * k))) ∧
    (∀ req ∈ recvRequests chunkSize chunkSize 0 8,
      1 ≤ req.2 ∧ req.2 ≤ 8 ∧ req.1 ≤ chunkSize ∧ req.1 + req.2 ≤ chunkSize ∧
        req.1 + req.2 < 2 ^ 32) ∧
    (∀ k, k + 1 < (chunkSize + 7) / 8 →
      ((recvRequests chunkSize chunkSize 0 8)[k]?).map Prod.snd = some 8) ∧
    (∀ k, k < (chunkSize + 7) / 8 →
      ((recvRequests chunkSize chunkSize 0 8)[k]?).map Prod.fst =
        some (((recvRequests chunkSize chunkSize 0 8).take k).map Prod.snd).sum) ∧
    ((recvRequests chunkSize chunkSize 0 8).map Prod.snd).sum = chunkSize ∧
    (chunkSize = 0 → recvRequests chunkSize chunkSize 0 8 = []) := by
  have hreq : recvRequests chunkSize chunkSize 0 8 =
      (List.range ((chunkSize + 7) / 8)).map
        (fun k => (8 * k, min 8 (chunkSize - 8 * k))) := by
    have h := recvRequests_eq chunkSize hc chunkSize 0 (Nat.zero_le _) (by omega)
    simp only [Nat.sub_zero, Nat.zero_add] at h
    exact h
  have hget : ∀ k, k < (chunkSize + 7) / 8 →
      (recvRequests chunkSize chunkSize 0 8)[k]? = some (8 * k, min 8 (chunkSize - 8 * k)) := by
    intro k hk
    rw [hreq, List.getElem?_map, List.getElem?_range hk]
    rfl
  have hfull : ∀ k, k + 1 < (chunkSize + 7) / 8 → min 8 (chunkSize - 8 * k) = 8 := by
    intro k hk
    omega
  have hsumk : ∀ k, k < (chunkSize + 7) / 8 →
      (((recvRequests chunkSize chunkSize 0 8).take k).map Prod.snd).sum = 8 * k := by
    intro k hk
    rw [hreq, take_range_map _ _ _ (Nat.le_of_lt hk), List.map_map,
      ← sum_map_const_eight k]
    congr 1
    apply List.map_congr_left
    intro j hj
    have hjk : j < k := List.mem_range.mp hj
    simp only [Function.comp]
    exact hfull j (by omega)
  refine ⟨?_, ?_, recvLoop_requests chunkSize chunkSize socket payload 0 8, ?_, hget, ?_, ?_,
    ?_, ?_, ?_⟩
  · exact recvLoop_more_fuel chunkSize hc chunkSize extra socket payload 0 8 (Nat.zero_le _)
      (by omega) (by decide)
  · exact recvLoop_exit chunkSize hc chunkSize socket payload 0 8 (Nat.zero_le _) (by omega)
      (by decide)
  · rw [hreq, List.length_map, List.length_range]
  · intro req hreqm
    rw [hreq] at hreqm
    obtain ⟨k, hk, rfl⟩ := List.mem_map.mp hreqm
    have hkm : k < (chunkSize + 7) / 8 := List.mem_range.mp hk
    simp only
    omega
  · intro k hk
    rw [hget k (by omega), Option.map_some', hfull k hk]
  · intro k hk
    rw [hget k hk, Option.map_some', hsumk k hk]
  · rcases Nat.eq_zero_or_pos ((chunkSize + 7) / 8) with h0 | hpos
    · rw [hreq, h0]
      simp only [List.range_zero, List.map_nil, List.sum_nil]
      omega
    · obtain ⟨m, hm⟩ : ∃ m, (chunkSize + 7) / 8 = m + 1 := ⟨(chunkSize + 7) / 8 - 1, by omega⟩
      have hlast := hget m (by omega)
      have htake := hsumk m (by omega)
      have hsplit : recvRequests chunkSize chunkSize 0 8 =
          (recvRequests chunkSize chunkSize 0 8).take m ++
            [(8 * m, min 8 (chunkSize - 8 * m))] := by
        have hlen : (recvRequests chunkSize chunkSize 0 8).length = m + 1 := by
          rw [hreq, List.length_map, List.length_range, hm]
        have hdrop : (recvRequests chunkSize chunkSize 0 8).drop m =
            [(8 * m, min 8 (chunkSize - 8 * m))] := by
          apply List.ext_getElem?
          intro i
          rw [List.getElem?_drop]
          cases i with
          | zero => simpa using hlast
          | succ i =>
            rw [List.getElem?_eq_none (by omega)]
            simp
        conv_lhs => rw [← List.take_append_drop m (recvRequests chunkSize chunkSize 0 8)]
        rw [hdrop]
      rw [hsplit, List.map_append, List.sum_append, htake]
      simp only [List.map_cons, List.map_nil, List.sum_cons, List.sum_nil, Nat.add_zero]
      omega
  · intro h0
    rw [hreq, h0]
    rfl

/-- Witness of C17: for `chunkSize = 20` the requests are 8 bytes at offset 0,
8 bytes at offset 8 and 4 bytes at offset 16, 20 bytes in total. -/
theorem RecvChunk_loop_requests_witness :
    recvRequests 20 20 0 8 = [(0, 8), (8, 8), (16, 4)] ∧
    ((recvRequests 20 20 0 8).map Prod.snd).sum = 20 :=
  have h := RecvChunk_loop_requests 20 (by decide) 0 ⟨[], [], []⟩ []
  ⟨by decide, h.2.2.2.2.2.2.2.2.1⟩



/-! ## Slot accounting -/

theorem fillFirstFree_stored (e : Nat) (he : e ≠ NULL) (slots : List Nat) :
    ∀ (budget : Nat) (r : List Nat), fillFirstFree e budget slots = some r →
      List.Perm (r.filter (fun x => decide (x ≠ NULL)))
        (e :: slots.filter (fun x => decide (x ≠ NULL))) ∧
      r.length = slots.length := by
  induction slots with
  | nil => intro budget r h; cases budget <;> simp [fillFirstFree] at h
  | cons x xs ih =>
    intro budget r h
    cases budget with
    | zero => simp [fillFirstFree] at h
    | succ b =>
      by_cases hx : x = NULL
      · simp only [fillFirstFree, hx, if_true, Option.some.injEq] at h
        subst h
        subst hx
        simp [he]
      · simp only [fillFirstFree, hx, if_false] at h
        cases hrec : fillFirstFree e b xs with
        | none => rw [hrec] at h; exact absurd h (by simp)
        | some r' =>
          rw [hrec] at h
          simp only [Option.map_some', Option.some.injEq] at h
          subst h
          obtain ⟨hp, hl⟩ := ih b r' hrec
          refine ⟨?_, by simp [hl]⟩
          simp only [List.filter_cons, hx, ne_eq, not_false_eq_true, decide_True, if_true]
          exact (List.Perm.cons x hp).trans (List.Perm.swap e x _)

theorem filter_nonnull_of_all (slots : List Nat) (h : ∀ x ∈ slots, x ≠ NULL) :
    slots.filter (fun x => decide (x ≠ NULL)) = slots := by
  apply List.filter_eq_self.mpr
  intro x hx
  simp [h x hx]

theorem occupied_le_length (s : IPCServer) : s.occupied ≤ s.broadcastEvents.length :=
  List.length_filter_le _ _

/-- One publish: the stored events gain `e`, the slot list grows only when it was
full. -/
theorem publish_step (s : IPCServer) (e : Nat) (he : e ≠ NULL)
    (hlen : s.broadcastEvents.length < 2 ^ 32) :
    List.Perm (s.SetEventForBroadcast e).stored (e :: s.stored) ∧
    (s.SetEventForBroadcast e).occupied = s.occupied + 1 ∧
    (s.SetEventForBroadcast e).broadcastEvents.length =
      max s.broadcastEvents.length (s.occupied + 1) := by
  have hmod : s.broadcastEvents.length % 2 ^ 32 = s.broadcastEvents.length :=
    Nat.mod_eq_of_lt hlen
  have hocc := occupied_le_length s
  cases hf : fillFirstFree e (s.broadcastEvents.length % 2 ^ 32) s.broadcastEvents with
  | some r =>
    obtain ⟨hp, hl⟩ := fillFirstFree_stored e he s.broadcastEvents _ r hf
    have hslots : (s.SetEventForBroadcast e).broadcastEvents = r := by
      simp only [IPCServer.SetEventForBroadcast, hf]
    have hperm : List.Perm (s.SetEventForBroadcast e).stored (e :: s.stored) := by
      unfold IPCServer.stored
      rw [hslots]
      exact hp
    have hcount : (s.SetEventForBroadcast e).occupied = s.occupied + 1 := by
      unfold IPCServer.occupied
      rw [hperm.length_eq, List.length_cons]
    refine ⟨hperm, hcount, ?_⟩
    have h1 := occupied_le_length (s.SetEventForBroadcast e)
    rw [hcount, hslots, hl] at h1
    rw [hslots, hl]
    omega
  | none =>
    have hall : ∀ x ∈ s.broadcastEvents, x ≠ NULL := by
      intro x hx hnull
      subst hnull
      rcases SetEventForBroadcast_slots s e hlen with ⟨k, hk, hlow, -⟩ | ⟨hall, -⟩
      · have := fillFirstFree_lowest e s.broadcastEvents s.broadcastEvents.length k
          (Nat.le_refl _) hk hlow
        rw [hmod] at hf
        rw [hf] at this
        exact absurd this (by simp)
      · exact hall NULL hx rfl
    have hslots : (s.SetEventForBroadcast e).broadcastEvents = s.broadcastEvents ++ [e] := by
      simp only [IPCServer.SetEventForBroadcast, hf]
    have hfull : s.stored = s.broadcastEvents := filter_nonnull_of_all _ hall
    have hstored : (s.SetEventForBroadcast e).stored = s.stored ++ [e] := by
      unfold IPCServer.stored
      rw [hslots, List.filter_append]
      simp [he]
    have hcount : (s.SetEventForBroadcast e).occupied = s.occupied + 1 := by
      unfold IPCServer.occupied
      rw [hstored, List.length_append, List.length_singleton]
    refine ⟨?_, hcount, ?_⟩
    · rw [hstored]
      exact List.perm_append_singleton e s.stored
    · rw [hslots, List.length_append, List.length_singleton]
      have : s.occupied = s.broadcastEvents.length := by
        unfold IPCServer.occupied
        rw [hfull]
      omega

theorem filter_map_clear (e : Nat) (he : e ≠ NULL) (slots : List Nat) :
    (slots.map (fun x => if e = x then NULL else x)).filter (fun x => decide (x ≠ NULL)) =
      (slots.filter (fun x => decide (x ≠ NULL))).filter (fun x => decide (x ≠ e)) := by
  induction slots with
  | nil => rfl
  | cons x xs ih =>
    by_cases hex : e = x
    · subst hex
      have h1 : decide (e ≠ NULL) = true := by simp [he]
      have h2 : decide (NULL ≠ NULL) = false := by simp
      have h3 : decide (e ≠ e) = false := by simp
      simp only [List.map_cons, if_true, List.filter_cons, h1, h2, h3, ih]
      simp
    · by_cases hx : x = NULL
      · subst hx
        have h2 : decide (NULL ≠ NULL) = false := by simp
        simp only [List.map_cons, hex, if_false, List.filter_cons, h2, ih]
        simp
      · have hxe : x ≠ e := fun h => hex h.symm
        have h1 : decide (x ≠ NULL) = true := by simp [hx]
        have h3 : decide (x ≠ e) = true := by simp [hxe]
        simp only [List.map_cons, hex, if_false, List.filter_cons, h1, h3, if_true, ih]

theorem length_filter_ne_of_nodup (e : Nat) (l : List Nat) (hnd : l.Nodup) (hmem : e ∈ l) :
    (l.filter (fun x => decide (x ≠ e))).length + 1 = l.length := by
  have hfun : (fun x : Nat => decide (x ≠ e)) = (fun x => x != e) := by
    funext x
    by_cases h : x = e <;> simp [h]
  rw [hfun, ← hnd.erase_eq_filter, List.length_erase_of_mem hmem]
  have : 0 < l.length := List.length_pos_of_mem hmem
  omega

theorem count_le_one_of_stored_nodup (s : IPCServer) (e : Nat) (he : e ≠ NULL)
    (hnd : s.stored.Nodup) : s.broadcastEvents.count e ≤ 1 := by
  have h1 : s.broadcastEvents.count e = s.stored.count e := by
    unfold IPCServer.stored
    rw [List.count_filter]
    simp [he]
  rw [h1]
  exact List.nodup_iff_count_le_one.mp hnd e

/-- One destroy: it returns, the slot list keeps its length, and the stored
events lose `e`. -/
theorem destroy_step (s : IPCServer) (e : Nat) (hnd : s.stored.Nodup)
    (hlen : s.broadcastEvents.length < 2 ^ 32) :
    ∃ s' : IPCServer, s.DestroyEvent e = some s' ∧
      s'.broadcastEvents.length = s.broadcastEvents.length ∧
      s'.stored.Nodup ∧
      s'.occupied ≤ s.occupied ∧
      (e ≠ NULL → e ∈ s.broadcastEvents → s'.occupied + 1 = s.occupied) ∧
      (e ∉ s'.stored) := by
  by_cases he : e = NULL
  · subst he
    have hd := DestroyEvent_clears s NULL hlen (Or.inl rfl)
    have hmap : s.broadcastEvents.map (fun x => if NULL = x then NULL else x) =
        s.broadcastEvents := by
      conv_rhs => rw [← List.map_id s.broadcastEvents]
      apply List.map_congr_left
      intro x _
      by_cases hx : NULL = x
      · simp [hx]
      · simp [hx]
    rw [hmap] at hd
    refine ⟨_, hd, rfl, hnd, Nat.le_refl _, fun h => absurd rfl h, ?_⟩
    intro hmem
    have := (List.mem_filter.mp hmem).2
    simp at this
  · have hcount := count_le_one_of_stored_nodup s e he hnd
    have hd := DestroyEvent_clears s e hlen (Or.inr hcount)
    have hst : IPCServer.stored
        { s with broadcastEvents := s.broadcastEvents.map (fun x => if e = x then NULL else x) } =
        s.stored.filter (fun x => decide (x ≠ e)) := filter_map_clear e he s.broadcastEvents
    refine ⟨_, hd, by simp, ?_, ?_, ?_, ?_⟩
    · rw [hst]; exact hnd.filter _
    · unfold IPCServer.occupied
      rw [hst]
      exact List.length_filter_le _ _
    · intro _ hmem
      have hmem' : e ∈ s.stored := by
        unfold IPCServer.stored
        exact List.mem_filter.mpr ⟨hmem, by simp [he]⟩
      unfold IPCServer.occupied
      rw [hst]
      exact length_filter_ne_of_nodup e s.stored hnd hmem'
    · rw [hst]
      intro hmem
      have := (List.mem_filter.mp hmem).2
      simp at this


theorem occupied_le_peakStored (s : IPCServer) (ops : List Op) :
    s.occupied ≤ peakStored s ops := by
  cases ops with
  | nil => exact Nat.le_refl _
  | cons op ops =>
    unfold peakStored
    cases op.run s with
    | none => exact Nat.le_refl _
    | some s' => exact Nat.le_max_left _ _

/-- The invariant of the accounting along an admissible run: the run returns,
no event is stored twice, the slot list never shrinks, and it is as long as the
larger of its starting length and the peak number of stored events. -/
theorem runOps_accounting : ∀ (pre post : List Op) (s : IPCServer), s.stored.Nodup →
    admissible s (pre ++ post) →
    ∃ s1 : IPCServer, runOps s pre = some s1 ∧ s1.stored.Nodup ∧
      s1.broadcastEvents.length = max s.broadcastEvents.length (peakStored s pre) ∧
      admissible s1 post := by
  intro pre
  induction pre with
  | nil =>
    intro post s hnd hadm
    refine ⟨s, rfl, hnd, ?_, hadm⟩
    have := occupied_le_length s
    simp only [peakStored]
    omega
  | cons op pre ih =>
    intro post s hnd hadm
    have hocc := occupied_le_length s
    cases op with
    | publish e =>
      obtain ⟨hlen, he, hnew, hrest⟩ := hadm
      obtain ⟨hperm, hcount, hl⟩ := publish_step s e he hlen
      have hnd' : (s.SetEventForBroadcast e).stored.Nodup := by
        rw [hperm.nodup_iff]
        refine List.nodup_cons.mpr ⟨?_, hnd⟩
        intro hmem
        exact hnew (List.mem_filter.mp hmem).1
      obtain ⟨s1, hrun, hnd1, hl1, hadm1⟩ := ih post (s.SetEventForBroadcast e) hnd' hrest
      refine ⟨s1, ?_, hnd1, ?_, hadm1⟩
      · simp only [runOps, Op.run]
        exact hrun
      · have hpk := occupied_le_peakStored (s.SetEventForBroadcast e) pre
        simp only [peakStored, Op.run]
        rw [hl1, hl]
        omega
    | destroy e =>
      obtain ⟨hlen, hrest⟩ := hadm
      obtain ⟨s', hd, hl, hnd', hle, -, -⟩ := destroy_step s e hnd hlen
      have hrest' : admissible s' (pre ++ post) := hrest s' hd
      obtain ⟨s1, hrun, hnd1, hl1, hadm1⟩ := ih post s' hnd' hrest'
      refine ⟨s1, ?_, hnd1, ?_, hadm1⟩
      · simp only [runOps, Op.run, hd]
        exact hrun
      · simp only [peakStored, Op.run, hd]
        rw [hl1, hl]
        omega

theorem init_stored (p : List Nat) : (IPCServer.init p).stored = [] := rfl

/-- C19 (amended): slot accounting over a sequence of calls `pre ++ post` from
the empty slot list, where every published event is non-null and not stored
when it is published, and the slot list has fewer than `2 ^ 32` slots whenever
a call is made. The calls of `pre` all return. In the state `s1` they lead to, no
event is stored in two slots and the slot list is as long as the largest number
of occupied slots among the states passed so far. If the next call publishes
`e`, the number of occupied slots rises by exactly one and the slot list does
not get shorter. If the next call is `DestroyEvent(e)`, it returns, the slot
list keeps its length, the number of occupied slots does not rise, and it drops
by exactly one when `e` is a stored event. -/
theorem slot_accounting (p : List Nat) (pre post : List Op)
    (hadm : admissible (IPCServer.init p) (pre ++ post)) :
    ∃ s1 : IPCServer, runOps (IPCServer.init p) pre = some s1 ∧
      (∀ x, x ≠ NULL → s1.broadcastEvents.count x ≤ 1) ∧
      s1.broadcastEvents.length = peakStored (IPCServer.init p) pre ∧
      (∀ e rest, post = Op.publish e :: rest →
        (s1.SetEventForBroadcast e).occupied = s1.occupied + 1 ∧
        s1.broadcastEvents.length ≤ (s1.SetEventForBroadcast e).broadcastEvents.length) ∧
      (∀ e rest, post = Op.destroy e :: rest →
        ∃ s2 : IPCServer, s1.DestroyEvent e = some s2 ∧
          s2.broadcastEvents.length = s1.broadcastEvents.length ∧
          s2.occupied ≤ s1.occupied ∧
          (e ≠ NULL → e ∈ s1.broadcastEvents → s2.occupied + 1 = s1.occupied)) := by
  obtain ⟨s1, hrun, hnd, hl, hadm1⟩ :=
    runOps_accounting pre post (IPCServer.init p) (by rw [init_stored]; exact List.nodup_nil) hadm
  refine ⟨s1, hrun, fun x hx => count_le_one_of_stored_nodup s1 x hx hnd, ?_, ?_, ?_⟩
  · rw [hl]
    simp [IPCServer.init]
  · intro e rest hpost
    subst hpost
    obtain ⟨hlen, he, -, -⟩ := hadm1
    obtain ⟨-, hcount, hlen'⟩ := publish_step s1 e he hlen
    exact ⟨hcount, by rw [hlen']; exact Nat.le_max_left _ _⟩
  · intro e rest hpost
    subst hpost
    obtain ⟨hlen, -⟩ := hadm1
    obtain ⟨s2, hd, hl2, -, hle, hdec, -⟩ := destroy_step s1 e hnd hlen
    exact ⟨s2, hd, hl2, hle, hdec⟩

/-- Witness of C19: publish 5, publish 6, destroy 5, followed by publish 7 and
destroy 6. -/
theorem slot_accounting_witness :
    admissible (IPCServer.init [])
      ([Op.publish 5, Op.publish 6, Op.destroy 5] ++ [Op.publish 7, Op.destroy 6]) ∧
    ∃ s1 : IPCServer,
      runOps (IPCServer.init []) [Op.publish 5, Op.publish 6, Op.destroy 5] = some s1 ∧
      (∀ x, x ≠ NULL → s1.broadcastEvents.count x ≤ 1) ∧
      s1.broadcastEvents.length =
        peakStored (IPCServer.init []) [Op.publish 5, Op.publish 6, Op.destroy 5] ∧
      (∀ e rest, [Op.publish 7, Op.destroy 6] = Op.publish e :: rest →
        (s1.SetEventForBroadcast e).occupied = s1.occupied + 1 ∧
        s1.broadcastEvents.length ≤ (s1.SetEventForBroadcast e).broadcastEvents.length) ∧
      (∀ e rest, [Op.publish 7, Op.destroy 6] = Op.destroy e :: rest →
        ∃ s2 : IPCServer, s1.DestroyEvent e = some s2 ∧
          s2.broadcastEvents.length = s1.broadcastEvents.length ∧
          s2.occupied ≤ s1.occupied ∧
          (e ≠ NULL → e ∈ s1.broadcastEvents → s2.occupied + 1 = s1.occupied)) :=
  ⟨by decide,
   slot_accounting [] [Op.publish 5, Op.publish 6, Op.destroy 5]
     [Op.publish 7, Op.destroy 6] (by decide)⟩


theorem DestroyEvent_wrapped (s : IPCServer) (e : Nat)
    (h : s.broadcastEvents.length % 2 ^ 32 = 0) : s.DestroyEvent e = some s := by
  simp only [IPCServer.DestroyEvent, h, destroyLoop, Option.map_some']

theorem runOps_append (ops more : List Op) :
    ∀ (s s1 : IPCServer), runOps s ops = some s1 → runOps s (ops ++ more) = runOps s1 more := by
  induction ops with
  | nil =>
    intro s s1 h
    simp only [runOps, Option.some.injEq] at h
    subst h
    rfl
  | cons op ops ih =>
    intro s s1 h
    simp only [runOps, List.cons_append] at h ⊢
    cases hop : op.run s with
    | none => rw [hop] at h; exact absurd h (by simp)
    | some s' =>
      rw [hop] at h
      exact ih s' s1 h

/-- Publishing the events `a + 1, …, a + n` into a slot list holding
`1, …, a`: every call is admissible while the list stays within `2 ^ 32` slots,
and the events are appended in order. -/
theorem publishes_run : ∀ (n a : Nat) (s : IPCServer),
    s.broadcastEvents = (List.range a).map (fun i => i + 1) → a + n ≤ 2 ^ 32 →
    admissible s ((List.range' a n).map (fun i => Op.publish (i + 1))) ∧
    runOps s ((List.range' a n).map (fun i => Op.publish (i + 1))) =
      some { s with
        broadcastEvents := (List.range (a + n)).map (fun i => i + 1)
        signalled := s.signalled ++
          (List.replicate n (s.clientComms.take (s.clientComms.length % 2 ^ 32))).flatten } := by
  intro n
  induction n with
  | zero =>
    intro a s hs _
    refine ⟨trivial, ?_⟩
    simp only [List.range', List.map_nil, runOps, Nat.add_zero, List.replicate, List.flatten_nil,
      List.append_nil, ← hs]
  | succ n ih =>
    intro a s hs hle
    have hall : ∀ x ∈ s.broadcastEvents, x ≠ NULL := by
      intro x hx
      rw [hs] at hx
      obtain ⟨i, -, rfl⟩ := List.mem_map.mp hx
      exact Nat.succ_ne_zero i
    have hnew : a + 1 ∉ s.broadcastEvents := by
      intro hx
      rw [hs] at hx
      obtain ⟨i, hi, hia⟩ := List.mem_map.mp hx
      have := List.mem_range.mp hi
      omega
    have hlen : s.broadcastEvents.length < 2 ^ 32 := by
      rw [hs, List.length_map, List.length_range]
      omega
    have hpub : s.SetEventForBroadcast (a + 1) =
        { s with
          broadcastEvents := (List.range (a + 1)).map (fun i => i + 1)
          signalled := s.signalled ++ s.clientComms.take (s.clientComms.length % 2 ^ 32) } := by
      simp only [IPCServer.SetEventForBroadcast, fillFirstFree_none (a + 1) _ _ hall]
      rw [List.range_succ, List.map_append, ← hs]
      rfl
    obtain ⟨hadm, hrun⟩ := ih (a + 1) (s.SetEventForBroadcast (a + 1))
      (by rw [hpub]) (by omega)
    simp only [List.range', List.map_cons]
    refine ⟨⟨hlen, Nat.succ_ne_zero a, hnew, hadm⟩, ?_⟩
    simp only [runOps, Op.run]
    rw [hrun, hpub]
    simp only [List.replicate_succ, List.flatten_cons, List.append_assoc]
    have : a + 1 + n = a + (n + 1) := by omega
    rw [this]

/-- Publishing the events `1, ..., M` from the empty slot list with
`M = 2 ^ 32`: the loop bound of a following `DestroyEvent` is `M % 2 ^ 32 = 0`. -/
theorem slot_accounting_wrap (M : Nat) (hM : M = 2 ^ 32) :
    admissible (IPCServer.init []) ((List.range' 0 M).map (fun i => Op.publish (i + 1))) ∧
    runOps (IPCServer.init []) ((List.range' 0 M).map (fun i => Op.publish (i + 1))) =
      some { IPCServer.init [] with broadcastEvents := (List.range M).map (fun i => i + 1) } ∧
    1 ∈ (List.range M).map (fun i => i + 1) ∧
    runOps (IPCServer.init [])
        ((List.range' 0 M).map (fun i => Op.publish (i + 1)) ++ [Op.destroy 1]) =
      some { IPCServer.init [] with broadcastEvents := (List.range M).map (fun i => i + 1) } := by
  obtain ⟨hadm, hrun⟩ := publishes_run M 0 (IPCServer.init []) rfl (by omega)
  have hrun' : runOps (IPCServer.init []) ((List.range' 0 M).map (fun i => Op.publish (i + 1))) =
      some { IPCServer.init [] with broadcastEvents := (List.range M).map (fun i => i + 1) } := by
    rw [hrun]
    simp [IPCServer.init]
  refine ⟨hadm, hrun', ?_, ?_⟩
  · refine List.mem_map.mpr ⟨0, List.mem_range.mpr ?_, rfl⟩
    rw [hM]
    exact Nat.two_pow_pos 32
  · rw [runOps_append _ _ _ _ hrun']
    simp only [runOps, Op.run]
    rw [DestroyEvent_wrapped]
    simp only [List.length_map, List.length_range, hM, Nat.mod_self]

/-- C19 fails as stated: publish the `2 ^ 32` distinct non-null events
`1, 2, ..., 2 ^ 32` from the empty slot list, each one not stored when it is
published. The slot list then has `2 ^ 32` slots, all occupied, and event 1 is
stored. `DestroyEvent(1)` computes the loop bound `2 ^ 32 % 2 ^ 32 = 0`, visits
no slot, and leaves the state as it was: the number of occupied slots is not
lowered. -/
theorem DestroyEvent_keeps_stored_event :
    admissible (IPCServer.init [])
      ((List.range' 0 (2 ^ 32)).map (fun i => Op.publish (i + 1))) ∧
    runOps (IPCServer.init []) ((List.range' 0 (2 ^ 32)).map (fun i => Op.publish (i + 1))) =
      some { IPCServer.init [] with
        broadcastEvents := (List.range (2 ^ 32)).map (fun i => i + 1) } ∧
    1 ∈ (List.range (2 ^ 32)).map (fun i => i + 1) ∧
    runOps (IPCServer.init [])
        ((List.range' 0 (2 ^ 32)).map (fun i => Op.publish (i + 1)) ++ [Op.destroy 1]) =
      some { IPCServer.init [] with
        broadcastEvents := (List.range (2 ^ 32)).map (fun i => i + 1) } :=
  slot_accounting_wrap (2 ^ 32) rfl

/-! ## A full slot list of `2 ^ 32` slots whose last slot is empty -/

end Wonderland
